import Mathlib

/-!
# Bounded buffer of the parallel matrix multiplier

A shallow embedding of `prodcons.c` and of the thread start-up of `pcmatrix.c`.

* The shared variables of `prodcons.c` (`bigmatrix`, `buffer_count`, `buffer_head`,
  `buffer_tail`, `matrices_produced`, `matrices_consumed`) form the record `Buffer`.
* `put` and `get` hold `buffer_lock` from their first to their last statement, so a call that
  completes acts atomically on the state it finds when its `while` test fails.  They are modelled
  as partial functions: `none` means that the `while` test holds and the caller goes to sleep in
  `pthread_cond_wait`.
* `int` variables are modelled by `Int`. Every result of `+` or `-` that is stored in an `int` is
  reduced by `int32` into the range `INT_MIN .. INT_MAX` (two's complement wrap-around), and `%`
  is `Int.tmod`, which truncates like the C operator. The two globals of `Config` are `int`
  variables and carry their range.
* A `Matrix *` handed to `put` is a valid matrix, `NULL` is only produced by `get` itself; the
  result of `get` is an `Option Matrix` with `none` for `NULL`.
* A worker thread touches shared state only inside `put` and `get`, so the threads created by
  `main` are interleaved at the granularity of these calls: one step of a thread is one pass
  through the critical section, which ends either in `pthread_cond_wait` or at the `return`,
  together with the thread-local statements up to the next call.
* `pthread_cond_wait` puts the caller to sleep until a `pthread_cond_signal` on the same condition
  variable wakes it; a woken thread tests its `while` condition again. `pthread_cond_signal`
  wakes at least one sleeper when there is one and is lost otherwise.
* `prod_worker` reads its matrix again (`SumMatrix(mat)`, line 78) after `put` has released the
  lock, when a consumer may already have removed and freed it; the value it reads is therefore an
  input of the producer step and not a function of the matrix.
-/

namespace PCMatrix

/-! ## Machine integers -/

/-- Largest value of a C `int`. -/
def INT_MAX : Int := 2147483647

/-- Smallest value of a C `int`. -/
def INT_MIN : Int := -2147483648

/-- The value an `int` holds after the mathematical result `x` has been stored in it: `x` reduced
modulo `2^32` into `INT_MIN .. INT_MAX`. -/
def int32 (x : Int) : Int :=
  (x + 2147483648) % 4294967296 - 2147483648

/-! ## Data model -/

/-- Matrix record of `matrix.h`: `rows`, `cols` and the element rows `m`. -/
structure Matrix where
  rows : Int
  cols : Int
  m : List (List Int)
deriving DecidableEq, Repr, Inhabited

/-- Statistics record `ProdConsStats` of `prodcons.h`. -/
structure ProdConsStats where
  sumtotal : Int
  multtotal : Int
  matrixtotal : Int
deriving DecidableEq, Repr

/-- The globals `BOUNDED_BUFFER_SIZE` and `NUMBER_OF_MATRICES` (`extern int` in `prodcons.h`),
written once by `main` before any thread is created. Both are `int` variables, so their values
lie in `INT_MIN .. INT_MAX`. -/
structure Config where
  BOUNDED_BUFFER_SIZE : Int
  NUMBER_OF_MATRICES : Int
  size_int : INT_MIN ≤ BOUNDED_BUFFER_SIZE ∧ BOUNDED_BUFFER_SIZE ≤ INT_MAX
  quota_int : INT_MIN ≤ NUMBER_OF_MATRICES ∧ NUMBER_OF_MATRICES ≤ INT_MAX

/-- Shared buffer variables of `prodcons.c` (lines 31-36). `bigmatrix` is the slot array,
indexed like the C array. -/
structure Buffer where
  bigmatrix : Int → Matrix
  buffer_count : Int
  buffer_head : Int
  buffer_tail : Int
  matrices_produced : Int
  matrices_consumed : Int

/-- State at program start: the static initialisers of `prodcons.c` and a freshly allocated slot
array whose content `slots` is arbitrary. -/
def initBuffer (slots : Int → Matrix) : Buffer :=
  { bigmatrix := slots
    buffer_count := 0
    buffer_head := 0
    buffer_tail := 0
    matrices_produced := 0
    matrices_consumed := 0 }

/-! ## `put` and `get` -/

/-- Function `put` of `prodcons.c` (lines 39-51). `none`: the buffer is full and the caller waits on
`buffer_not_full`. Otherwise the new state and the returned `int`. -/
def put (cfg : Config) (s : Buffer) (value : Matrix) : Option (Buffer × Int) :=
  if s.buffer_count = cfg.BOUNDED_BUFFER_SIZE then none
  else
    some
      ({ bigmatrix := Function.update s.bigmatrix s.buffer_tail value
         buffer_tail := Int.tmod (int32 (s.buffer_tail + 1)) cfg.BOUNDED_BUFFER_SIZE
         buffer_count := int32 (s.buffer_count + 1)
         matrices_produced := int32 (s.matrices_produced + 1)
         buffer_head := s.buffer_head
         matrices_consumed := s.matrices_consumed }, 0)

/-- Function `get` of `prodcons.c` (lines 54-70). `none`: the buffer is empty while
`matrices_produced < NUMBER_OF_MATRICES` and the caller waits on `buffer_not_empty`.
`some (s, none)`: the call returns `NULL`. `some (s, some x)`: the call returns the matrix `x`. -/
def get (cfg : Config) (s : Buffer) : Option (Buffer × Option Matrix) :=
  if s.buffer_count = 0 ∧ s.matrices_produced < cfg.NUMBER_OF_MATRICES then none
  else if s.buffer_count = 0 ∧ s.matrices_produced ≥ cfg.NUMBER_OF_MATRICES then some (s, none)
  else
    some
      ({ bigmatrix := s.bigmatrix
         buffer_head := Int.tmod (int32 (s.buffer_head + 1)) cfg.BOUNDED_BUFFER_SIZE
         buffer_count := int32 (s.buffer_count - 1)
         matrices_consumed := int32 (s.matrices_consumed + 1)
         buffer_tail := s.buffer_tail
         matrices_produced := s.matrices_produced }, some (s.bigmatrix s.buffer_head))

/-- Range constraints of the buffer record: `0 ≤ buffer_count ≤ BOUNDED_BUFFER_SIZE` and both
cursors index a slot of the array. -/
def WellFormed (cfg : Config) (s : Buffer) : Prop :=
  0 ≤ s.buffer_count ∧ s.buffer_count ≤ cfg.BOUNDED_BUFFER_SIZE ∧
    0 ≤ s.buffer_head ∧ s.buffer_head < cfg.BOUNDED_BUFFER_SIZE ∧
    0 ≤ s.buffer_tail ∧ s.buffer_tail < cfg.BOUNDED_BUFFER_SIZE

/-! ## Sequences of completed operations -/

/-- One completed call on the buffer. -/
inductive Op where
  | put (value : Matrix)
  | get
deriving DecidableEq, Repr

/-- Runs a sequence of calls, each of which has to complete. Returns the final state and the
matrices returned by the `get` calls that did not return `NULL`, oldest first. -/
def runOps (cfg : Config) : Buffer → List Op → Option (Buffer × List Matrix)
  | s, [] => some (s, [])
  | s, Op.put v :: ops =>
    match put cfg s v with
    | none => none
    | some (s1, _) => runOps cfg s1 ops
  | s, Op.get :: ops =>
    match get cfg s with
    | none => none
    | some (s1, none) => runOps cfg s1 ops
    | some (s1, some x) =>
      match runOps cfg s1 ops with
      | none => none
      | some (s2, outs) => some (s2, x :: outs)

/-- The matrices handed to `put` in a sequence of calls, oldest first. -/
def putsOf : List Op → List Matrix
  | [] => []
  | Op.put v :: ops => v :: putsOf ops
  | Op.get :: ops => putsOf ops

/-- States reached from the initial state by completed `put` and `get` calls. -/
def Reachable (cfg : Config) (s : Buffer) : Prop :=
  ∃ slots ops outs, runOps cfg (initBuffer slots) ops = some (s, outs)

/-- FIFO queue written from the specification: `put` appends the matrix to the back of the queue,
a `get` on a non-empty queue removes and returns the front, a `get` on an empty queue (the
exhausted case) removes nothing. Returns the final queue and the matrices returned, oldest
first. -/
def fifoOps : List Matrix → List Op → List Matrix × List Matrix
  | q, [] => (q, [])
  | q, Op.put v :: ops => fifoOps (q ++ [v]) ops
  | [], Op.get :: ops => fifoOps [] ops
  | x :: q, Op.get :: ops => ((fifoOps q ops).1, x :: (fifoOps q ops).2)

/-- The matrices held in the `buffer_count` slots starting at `buffer_head`, wrapping around. -/
def contents (cfg : Config) (s : Buffer) : List Matrix :=
  (List.range s.buffer_count.toNat).map
    (fun (i : Nat) => s.bigmatrix ((s.buffer_head + (i : Int)) % cfg.BOUNDED_BUFFER_SIZE))

/-- Invariant of the cursors kept by every completed call: the range constraints and the position
of `buffer_tail` relative to `buffer_head`. -/
def Inv (cfg : Config) (s : Buffer) : Prop :=
  WellFormed cfg s ∧
    s.buffer_tail = (s.buffer_head + s.buffer_count) % cfg.BOUNDED_BUFFER_SIZE

/-- Balance of the counters while they are below `INT_MAX`: nothing is negative and
`matrices_produced = matrices_consumed + buffer_count`. -/
def Balanced (s : Buffer) : Prop :=
  0 ≤ s.buffer_count ∧ 0 ≤ s.matrices_consumed ∧
    s.matrices_produced = s.matrices_consumed + s.buffer_count

/-! ## Matrix routines used by the workers -/

/-- Modelled from the spec: `matrix.c` is not among the sources; `elementSum(item)` is the sum of
the elements of the matrix, returned as an `int` (`int SumMatrix(Matrix * mat)` in
`matrix.h`). -/
def SumMatrix (mat : Matrix) : Int :=
  int32 (mat.m.map List.sum).sum

/-- Modelled from the spec: `matrix.c` is not among the sources; `tryCombine(a, b)` returns a new
matrix only when `a.cols == b.rows` and reports incompatibility (`NULL`) otherwise. The new matrix
is the matrix product. -/
def MatrixMultiply (m1 m2 : Matrix) : Option Matrix :=
  if m1.cols = m2.rows then
    some
      { rows := m1.rows
        cols := m2.cols
        m := m1.m.map
          (fun row =>
            m2.m.transpose.map (fun col => int32 (List.zipWith (fun a b => a * b) row col).sum)) }
  else none

/-! ## Worker threads -/

/-- Where a worker thread stands: `running` (it can execute its next call), `waiting` (asleep in
`pthread_cond_wait`), `finished` (the thread function has returned and the thread can be
joined). -/
inductive Status where
  | running
  | waiting
  | finished
deriving DecidableEq, Repr

/-- Local state of a `prod_worker` thread: the loop counter `i` and the record behind `arg`. -/
structure Producer where
  i : Int
  status : Status
  stats : ProdConsStats
deriving DecidableEq, Repr

/-- Local state of a `cons_worker` thread: `m1` is `none` when the thread is at the outer `get`
(line 88) and `some a` when it holds `a` and is at the inner `get` (line 92). -/
structure Consumer where
  m1 : Option Matrix
  status : Status
  stats : ProdConsStats
deriving DecidableEq, Repr

/-- Statistics as zeroed by `main` before `pthread_create` (lines 90-92 and 98-100). -/
def zeroStats : ProdConsStats :=
  { sumtotal := 0, multtotal := 0, matrixtotal := 0 }

/-- A producer thread as created by `main`. -/
def newProducer : Producer :=
  { i := 0, status := Status.running, stats := zeroStats }

/-- A consumer thread as created by `main`. -/
def newConsumer : Consumer :=
  { m1 := none, status := Status.running, stats := zeroStats }

/-- Body of the `prod_worker` loop after `put(mat)` has returned (lines 78-79 and the `i++`).
`seen` is the value `SumMatrix(mat)` returns on line 78: the element sum of `mat` as long as no
consumer has freed it, and whatever the freed memory holds afterwards. -/
def prod_after_put (p : Producer) (seen : Int) : Producer :=
  { i := int32 (p.i + 1)
    status := p.status
    stats :=
      { sumtotal := int32 (p.stats.sumtotal + seen)
        multtotal := p.stats.multtotal
        matrixtotal := int32 (p.stats.matrixtotal + 1) } }

/-- What `cons_worker` does with the result `r` of its next `get()` call (lines 88-110).
At the outer `get`: `NULL` ends the thread, a matrix becomes `m1`. At the inner `get`: `NULL`
leaves the inner loop and frees `m1`; a matrix `m2` is multiplied with `m1`, on success the
statistics are updated and `m1` is freed, on failure `m2` is freed and `m1` is kept. -/
def cons_step (c : Consumer) (r : Option Matrix) : Consumer :=
  match c.m1, r with
  | none, none => { c with status := Status.finished }
  | none, some x => { c with m1 := some x }
  | some _, none => { c with m1 := none }
  | some a, some m2 =>
    match MatrixMultiply a m2 with
    | some _ =>
      { m1 := none
        status := c.status
        stats :=
          { sumtotal := int32 (c.stats.sumtotal + int32 (SumMatrix a + SumMatrix m2))
            multtotal := int32 (c.stats.multtotal + 1)
            matrixtotal := int32 (c.stats.matrixtotal + 2) } }
    | none => c

/-- Function `cons_worker` run against the results of its successive `get()` calls: the thread
consumes one result per call until it has returned. -/
def cons_worker : Consumer → List (Option Matrix) → Consumer
  | c, [] => c
  | c, r :: rs => if c.status = Status.finished then c else cons_worker (cons_step c r) rs

mutual

/-- Greedy pairing written from the specification, drawing a first matrix: the next matrix of the
sequence is held as first operand; at the end of the sequence nothing is held and no pair is
formed. -/
def greedyPairs : List Matrix → List (Matrix × Matrix)
  | [] => []
  | a :: xs => pairsHolding a xs

/-- Greedy pairing written from the specification, holding the first matrix `a`: every candidate
whose row count differs from the column count of `a` is skipped, the first compatible candidate
forms a pair with `a`, after which a new first matrix is drawn; when the sequence ends while `a`
is held, `a` is discarded. -/
def pairsHolding (a : Matrix) : List Matrix → List (Matrix × Matrix)
  | [] => []
  | x :: xs => if x.rows = a.cols then (a, x) :: greedyPairs xs else pairsHolding a xs

end

/-- Sum of `SumMatrix` over both operands of every pair of `ps`, as a mathematical integer. -/
def pairSums (ps : List (Matrix × Matrix)) : Int :=
  (ps.map (fun p => SumMatrix p.1 + SumMatrix p.2)).sum

/-- Statistics `st` after the pairs `ps` have been multiplied: one multiplication, two matrices
and the element sums of both operands per pair, each stored in an `int`. -/
def addPairs (st : ProdConsStats) (ps : List (Matrix × Matrix)) : ProdConsStats :=
  { sumtotal := int32 (st.sumtotal + pairSums ps)
    multtotal := int32 (st.multtotal + (ps.length : Int))
    matrixtotal := int32 (st.matrixtotal + 2 * (ps.length : Int)) }

/-- The three statistics fields hold values of an `int`. -/
def StatsInt (st : ProdConsStats) : Prop :=
  (INT_MIN ≤ st.sumtotal ∧ st.sumtotal ≤ INT_MAX) ∧
    (INT_MIN ≤ st.multtotal ∧ st.multtotal ≤ INT_MAX) ∧
    (INT_MIN ≤ st.matrixtotal ∧ st.matrixtotal ≤ INT_MAX)

/-! ## The threads of `main` on the shared buffer -/

/-- The shared buffer together with the producer and consumer threads created by `main`. -/
structure System where
  buf : Buffer
  producers : List Producer
  consumers : List Consumer

/-- State right after `main` has created `numw` producer and `numw` consumer threads
(lines 89-102). -/
def startSystem (numw : Nat) (slots : Int → Matrix) : System :=
  { buf := initBuffer slots
    producers := List.replicate numw newProducer
    consumers := List.replicate numw newConsumer }

/-- Indices, counted from `j`, of the threads asleep in `pthread_cond_wait`. -/
def blockedFrom {α : Type} (status : α → Status) : Nat → List α → List Nat
  | _, [] => []
  | j, t :: ts =>
    if status t = Status.waiting then j :: blockedFrom status (j + 1) ts
    else blockedFrom status (j + 1) ts

/-- Makes the threads whose index, counted from `j`, is in `ws` runnable again. -/
def wakeFrom {α : Type} (wake : α → α) (ws : List Nat) : Nat → List α → List α
  | _, [] => []
  | j, t :: ts => (if j ∈ ws then wake t else t) :: wakeFrom wake ws (j + 1) ts

/-- The call `pthread_cond_signal` on a condition variable on which the threads `ts` may sleep:
with no sleeper it does nothing; otherwise it wakes at least one sleeper, and `ws` is the set of
sleepers it wakes. `none` when `ws` is not a possible choice. -/
def signal {α : Type} (status : α → Status) (wake : α → α) (ts : List α) (ws : List Nat) :
    Option (List α) :=
  if blockedFrom status 0 ts = [] then (if ws = [] then some ts else none)
  else if ws ≠ [] ∧ ∀ w ∈ ws, w ∈ blockedFrom status 0 ts then some (wakeFrom wake ws 0 ts)
  else none

/-- A woken consumer is runnable. -/
def wakeConsumer (c : Consumer) : Consumer :=
  { c with status := Status.running }

/-- A woken producer is runnable. -/
def wakeProducer (p : Producer) : Producer :=
  { p with status := Status.running }

/-- One scheduling decision: the thread that runs its next critical section and the sleepers
woken by the `pthread_cond_signal` it issues; for a producer also the value `seen` that
`SumMatrix(mat)` returns after `put`. -/
inductive Action where
  | producer (k : Nat) (ws : List Nat) (seen : Int)
  | consumer (k : Nat) (ws : List Nat)
deriving DecidableEq, Repr

/-- One step of producer `k` (`prod_worker`, lines 73-82, calling `put`). `gen k i` is the matrix
`GenMatrixRandom()` returns to producer `k` in iteration `i`. A running producer leaves the loop
when `i < NUMBER_OF_MATRICES` fails; otherwise it calls `put`, which either puts it to sleep on
`buffer_not_full` or completes and signals `buffer_not_empty`. -/
def prod_worker_step (cfg : Config) (gen : Nat → Int → Matrix) (s : System) (k : Nat)
    (ws : List Nat) (seen : Int) : Option System :=
  match s.producers[k]? with
  | none => none
  | some p =>
    if p.status ≠ Status.running then none
    else if ¬ p.i < cfg.NUMBER_OF_MATRICES then
      some { s with producers := s.producers.set k { p with status := Status.finished } }
    else
      match put cfg s.buf (gen k p.i) with
      | none =>
        some { s with producers := s.producers.set k { p with status := Status.waiting } }
      | some (b, _) =>
        match signal Consumer.status wakeConsumer s.consumers ws with
        | none => none
        | some cs =>
          some
            { buf := b
              producers := s.producers.set k (prod_after_put p seen)
              consumers := cs }

/-- One step of consumer `k` (`cons_worker`, lines 85-113, calling `get`). The call to `get`
either puts the thread to sleep on `buffer_not_empty`, or returns `NULL` without signalling, or
returns a matrix and signals `buffer_not_full`. -/
def cons_worker_step (cfg : Config) (s : System) (k : Nat) (ws : List Nat) : Option System :=
  match s.consumers[k]? with
  | none => none
  | some c =>
    if c.status ≠ Status.running then none
    else
      match get cfg s.buf with
      | none =>
        some { s with consumers := s.consumers.set k { c with status := Status.waiting } }
      | some (_, none) =>
        some { s with consumers := s.consumers.set k (cons_step c none) }
      | some (b, some x) =>
        match signal Producer.status wakeProducer s.producers ws with
        | none => none
        | some ps =>
          some
            { buf := b
              producers := ps
              consumers := s.consumers.set k (cons_step c (some x)) }

/-- Step function of the interleaved system. `none`: the action is not possible in `s`. -/
def step (cfg : Config) (gen : Nat → Int → Matrix) (s : System) : Action → Option System
  | Action.producer k ws seen => prod_worker_step cfg gen s k ws seen
  | Action.consumer k ws => cons_worker_step cfg s k ws

/-- Runs a schedule, every action of which has to be possible. -/
def runSchedule (cfg : Config) (gen : Nat → Int → Matrix) : System → List Action → Option System
  | s, [] => some s
  | s, a :: acts =>
    match step cfg gen s a with
    | none => none
    | some s1 => runSchedule cfg gen s1 acts

/-- Some worker has not returned, so `main` is still blocked in a `pthread_join`. -/
def Unfinished (s : System) : Prop :=
  (∃ p ∈ s.producers, p.status ≠ Status.finished) ∨
    ∃ c ∈ s.consumers, c.status ≠ Status.finished

/-- Deadlock: some worker has not returned and no worker can take a step. -/
def Deadlock (cfg : Config) (gen : Nat → Int → Matrix) (s : System) : Prop :=
  Unfinished s ∧ ∀ a : Action, step cfg gen s a = none

/-! ## Counting threads -/

/-- Number of threads of `ts` that satisfy `p`. -/
def tally {α : Type} (p : α → Bool) : List α → Int
  | [] => 0
  | t :: ts => (if p t then 1 else 0) + tally p ts

/-- The thread is asleep in `pthread_cond_wait`. -/
def asleep {α : Type} (status : α → Status) (t : α) : Bool :=
  decide (status t = Status.waiting)

/-- The consumer is runnable: its next step is a call of `get`. -/
def consRunnable (c : Consumer) : Bool :=
  decide (c.status = Status.running)

/-- The producer is runnable and has not left its loop: its next step is a call of `put`. -/
def prodPutting (cfg : Config) (p : Producer) : Bool :=
  decide (p.status = Status.running) && decide (p.i < cfg.NUMBER_OF_MATRICES)

/-- Facts about one producer thread: `i` counts its completed `put` calls, stays within the
quota, a producer asleep in `put` is inside the loop and a producer that has returned has left
it. -/
def ProducerOk (cfg : Config) (p : Producer) : Prop :=
  0 ≤ p.i ∧ (p.i ≤ cfg.NUMBER_OF_MATRICES ∨ p.i = 0) ∧
    (p.status = Status.waiting → p.i < cfg.NUMBER_OF_MATRICES) ∧
    (p.status = Status.finished → ¬ p.i < cfg.NUMBER_OF_MATRICES)

/-- Invariant of the system started by `main` with `numw` producers and `numw` consumers. -/
def SysInv (cfg : Config) (numw : Nat) (s : System) : Prop :=
  s.producers.length = numw ∧ s.consumers.length = numw ∧
    0 ≤ s.buf.buffer_count ∧ s.buf.buffer_count ≤ cfg.BOUNDED_BUFFER_SIZE ∧
    s.buf.matrices_produced = (s.producers.map Producer.i).sum ∧
    (∀ p ∈ s.producers, ProducerOk cfg p) ∧
    (0 < tally (asleep Consumer.status) s.consumers → 1 ≤ cfg.NUMBER_OF_MATRICES) ∧
    (0 < tally (asleep Consumer.status) s.consumers →
      cfg.NUMBER_OF_MATRICES ≤ s.buf.matrices_produced →
      tally (asleep Consumer.status) s.consumers + s.buf.matrices_produced
        ≤ (numw : Int) * cfg.NUMBER_OF_MATRICES) ∧
    (0 < tally (asleep Consumer.status) s.consumers →
      s.buf.buffer_count ≤ tally consRunnable s.consumers) ∧
    (0 < tally (asleep Producer.status) s.producers →
      cfg.BOUNDED_BUFFER_SIZE - s.buf.buffer_count ≤ tally (prodPutting cfg) s.producers)

/-- The producer is runnable. -/
def prodRunnable (p : Producer) : Bool :=
  decide (p.status = Status.running)

/-- The consumer holds a first matrix `m1`. -/
def holding (c : Consumer) : Bool :=
  c.m1.isSome

/-- Balance of the counters of the shared buffer inside the system. -/
def SysBal (s : System) : Prop :=
  0 ≤ s.buf.matrices_consumed ∧
    s.buf.matrices_produced = s.buf.matrices_consumed + s.buf.buffer_count

/-- The number of matrices all producers insert: `numw` times the quota, and none when the quota
is negative. -/
def grandTotal (cfg : Config) (numw : Nat) : Int :=
  (numw : Int) * max cfg.NUMBER_OF_MATRICES 0

/-- A bound on the number of steps the threads can still take: every insertion and every removal
still to come may be followed by one step of each woken thread, every runnable thread may go to
sleep or return, and a consumer that holds a matrix may drop it. -/
def stepsLeft (cfg : Config) (numw : Nat) (s : System) : Int :=
  (2 * (numw : Int) + 3) *
      ((grandTotal cfg numw - s.buf.matrices_produced) +
        (grandTotal cfg numw - s.buf.matrices_consumed)) +
    2 * (tally prodRunnable s.producers + tally consRunnable s.consumers) +
    tally holding s.consumers

/-! ## Concrete runs -/

/-- The configuration `BOUNDED_BUFFER_SIZE = 4`, `NUMBER_OF_MATRICES = 5`. -/
def cfg45 : Config :=
  { BOUNDED_BUFFER_SIZE := 4
    NUMBER_OF_MATRICES := 5
    size_int := by decide
    quota_int := by decide }

/-- The configuration `BOUNDED_BUFFER_SIZE = 2`, `NUMBER_OF_MATRICES = 5`. -/
def cfg25 : Config :=
  { BOUNDED_BUFFER_SIZE := 2
    NUMBER_OF_MATRICES := 5
    size_int := by decide
    quota_int := by decide }

/-- The configuration `BOUNDED_BUFFER_SIZE = 1`, `NUMBER_OF_MATRICES = 5`. -/
def cfg15 : Config :=
  { BOUNDED_BUFFER_SIZE := 1
    NUMBER_OF_MATRICES := 5
    size_int := by decide
    quota_int := by decide }

/-- An outcome of the generator in which every matrix is the 2x2 matrix of ones. -/
def onesGen : Nat → Int → Matrix :=
  fun _ _ => ⟨2, 2, [[1, 1], [1, 1]]⟩

/-- Schedule of the 2+2 threads: producer 0 inserts its five matrices while consumer 0 removes
them (eleven steps, the last one being the fifth removal). Producer 0 reads each matrix before
it is freed, so `SumMatrix` returns 4. -/
def firstQuotaSchedule : List Action :=
  List.replicate 4 (Action.producer 0 [] 4) ++ List.replicate 4 (Action.consumer 0 []) ++
    [Action.producer 0 [] 4, Action.producer 0 [] 4, Action.consumer 0 []]

/-- Schedule of the 2+2 threads that continues `firstQuotaSchedule`: both consumers now get
`NULL` and return, then producer 1 inserts four matrices and calls `put` a fifth time. -/
def deadlockSchedule : List Action :=
  firstQuotaSchedule ++
    [Action.consumer 0 [], Action.consumer 0 [], Action.consumer 1 []] ++
    List.replicate 5 (Action.producer 1 [] 4)

/-- Buffer of capacity 4 that is empty after five insertions and five removals. -/
def exhaustedBuffer : Buffer :=
  { bigmatrix := fun _ => default
    buffer_count := 0
    buffer_head := 1
    buffer_tail := 1
    matrices_produced := 5
    matrices_consumed := 5 }

/-- Buffer of capacity 4 holding two matrices in the slots 3 and 0. -/
def twoBuffered : Buffer :=
  { bigmatrix := fun _ => default
    buffer_count := 2
    buffer_head := 3
    buffer_tail := 1
    matrices_produced := 7
    matrices_consumed := 5 }

/-- The state reached with capacity 2 by the calls `put a`, `get`, `put b` for two 1x1
matrices. -/
def wrappedBuffer : Buffer :=
  { bigmatrix := Function.update (Function.update (fun _ => default) 0 ⟨1, 1, [[7]]⟩) 1 ⟨1, 1, [[8]]⟩
    buffer_count := 1
    buffer_head := 1
    buffer_tail := 0
    matrices_produced := 2
    matrices_consumed := 1 }

/-- The calls that lead to `wrappedBuffer`. -/
def wrappedOps : List Op :=
  [Op.put ⟨1, 1, [[7]]⟩, Op.get, Op.put ⟨1, 1, [[8]]⟩]

/-- Results of the `get()` calls of one consumer: a 2x2 matrix, a 3x3 matrix, two more 2x2
matrices. -/
def pairingItems : List Matrix :=
  [⟨2, 2, [[1, 1], [1, 1]]⟩, ⟨3, 3, [[1, 0, 0], [0, 1, 0], [0, 0, 1]]⟩,
    ⟨2, 2, [[1, 2], [3, 4]]⟩, ⟨2, 2, [[5, 5], [5, 5]]⟩]

/-- The configuration `BOUNDED_BUFFER_SIZE = 4`, `NUMBER_OF_MATRICES = 1`. -/
def cfg41 : Config :=
  { BOUNDED_BUFFER_SIZE := 4
    NUMBER_OF_MATRICES := 1
    size_int := by decide
    quota_int := by decide }

/-- Schedule of the 2+2 threads with `NUMBER_OF_MATRICES = 1`: both consumers call `get` on the
empty buffer and go to sleep, then producer 0 inserts its matrix and the signal wakes
consumer 0. -/
def beforeFinalSchedule : List Action :=
  [Action.consumer 0 [], Action.consumer 1 [], Action.producer 0 [0] 4]

/-- State after `beforeFinalSchedule`: one of the two matrices is produced, consumer 1 is still
asleep on `buffer_not_empty`. -/
def beforeFinalPut : System :=
  { buf :=
      { bigmatrix := Function.update (fun _ => default) 0 (onesGen 0 0)
        buffer_count := 1
        buffer_head := 0
        buffer_tail := 1
        matrices_produced := 1
        matrices_consumed := 0 }
    producers := [⟨1, Status.running, ⟨4, 0, 1⟩⟩, newProducer]
    consumers := [⟨none, Status.running, zeroStats⟩, ⟨none, Status.waiting, zeroStats⟩] }

/-- State that follows `beforeFinalPut` when producer 1 completes the last `put`. -/
def afterFinalPut : System :=
  { buf :=
      { bigmatrix :=
          Function.update (Function.update (fun _ => default) 0 (onesGen 0 0)) 1 (onesGen 1 0)
        buffer_count := 2
        buffer_head := 0
        buffer_tail := 2
        matrices_produced := 2
        matrices_consumed := 0 }
    producers := [⟨1, Status.running, ⟨4, 0, 1⟩⟩, ⟨1, Status.running, ⟨4, 0, 1⟩⟩]
    consumers := [⟨none, Status.running, zeroStats⟩, ⟨none, Status.running, zeroStats⟩] }

/-! ## Machine integer lemmas -/

theorem int32_eq_self (x : Int) (h1 : INT_MIN ≤ x) (h2 : x ≤ INT_MAX) : int32 x = x := by
  unfold INT_MIN at h1
  unfold INT_MAX at h2
  unfold int32
  omega

theorem int32_range (x : Int) : INT_MIN ≤ int32 x ∧ int32 x ≤ INT_MAX := by
  unfold INT_MIN INT_MAX int32
  omega

theorem int32_add_int32 (a b : Int) : int32 (a + int32 b) = int32 (a + b) := by
  unfold int32
  omega

theorem int32_int32_add (a b : Int) : int32 (int32 a + b) = int32 (a + b) := by
  unfold int32
  omega

/-! ## Single-call lemmas -/

theorem put_eq_some (cfg : Config) (s s1 : Buffer) (v : Matrix) (r : Int)
    (h : put cfg s v = some (s1, r)) :
    s.buffer_count ≠ cfg.BOUNDED_BUFFER_SIZE ∧ r = 0 ∧
      s1.bigmatrix = Function.update s.bigmatrix s.buffer_tail v ∧
      s1.buffer_tail = Int.tmod (int32 (s.buffer_tail + 1)) cfg.BOUNDED_BUFFER_SIZE ∧
      s1.buffer_count = int32 (s.buffer_count + 1) ∧
      s1.matrices_produced = int32 (s.matrices_produced + 1) ∧
      s1.buffer_head = s.buffer_head ∧ s1.matrices_consumed = s.matrices_consumed := by
  unfold put at h
  split at h
  · exact absurd h (by simp)
  · rename_i hne
    simp only [Option.some.injEq, Prod.mk.injEq] at h
    obtain ⟨hs, hr⟩ := h
    subst hs
    exact ⟨hne, hr.symm, rfl, rfl, rfl, rfl, rfl, rfl⟩

theorem get_eq_null (cfg : Config) (s s1 : Buffer) (h : get cfg s = some (s1, none)) :
    s1 = s ∧ s.buffer_count = 0 ∧ cfg.NUMBER_OF_MATRICES ≤ s.matrices_produced := by
  unfold get at h
  split at h
  · exact absurd h (by simp)
  · split at h
    · rename_i h2
      simp only [Option.some.injEq, Prod.mk.injEq, and_true] at h
      exact ⟨h.symm, h2.1, h2.2⟩
    · simp at h

theorem get_eq_item (cfg : Config) (s s1 : Buffer) (x : Matrix)
    (h : get cfg s = some (s1, some x)) :
    s.buffer_count ≠ 0 ∧ x = s.bigmatrix s.buffer_head ∧
      s1.bigmatrix = s.bigmatrix ∧
      s1.buffer_head = Int.tmod (int32 (s.buffer_head + 1)) cfg.BOUNDED_BUFFER_SIZE ∧
      s1.buffer_count = int32 (s.buffer_count - 1) ∧
      s1.matrices_consumed = int32 (s.matrices_consumed + 1) ∧
      s1.buffer_tail = s.buffer_tail ∧ s1.matrices_produced = s.matrices_produced := by
  unfold get at h
  split at h
  · exact absurd h (by simp)
  · rename_i h1
    split at h
    · simp at h
    · rename_i h2
      simp only [Option.some.injEq, Prod.mk.injEq] at h
      obtain ⟨hs, hx⟩ := h
      subst hs
      refine ⟨?_, hx.symm, rfl, rfl, rfl, rfl, rfl, rfl⟩
      intro h0
      rcases lt_or_le s.matrices_produced cfg.NUMBER_OF_MATRICES with hlt | hge
      · exact h1 ⟨h0, hlt⟩
      · exact h2 ⟨h0, hge⟩

theorem get_blocks_iff (cfg : Config) (s : Buffer) :
    get cfg s = none ↔ s.buffer_count = 0 ∧ s.matrices_produced < cfg.NUMBER_OF_MATRICES := by
  unfold get
  constructor
  · intro h
    split at h
    · assumption
    · split at h <;> simp at h
  · intro h
    simp [h]

theorem put_blocks_iff (cfg : Config) (s : Buffer) (v : Matrix) :
    put cfg s v = none ↔ s.buffer_count = cfg.BOUNDED_BUFFER_SIZE := by
  unfold put
  constructor
  · intro h
    split at h
    · assumption
    · simp at h
  · intro h
    simp [h]

theorem slot_ne_tail (cap head count : Int) (i : Nat) (hcap : count < cap)
    (hi : (i : Int) < count) : (head + (i : Int)) % cap ≠ (head + count) % cap := by
  intro h
  have h1 : (head + count - (head + (i : Int))) % cap = 0 :=
    Int.emod_eq_emod_iff_emod_sub_eq_zero.mp h.symm
  have h2 : (head + count - (head + (i : Int))) = count - (i : Int) := by ring
  rw [h2] at h1
  have h3 : (count - (i : Int)) % cap = count - (i : Int) :=
    Int.emod_eq_of_lt (by omega) (by omega)
  omega

/-- The cursor advance of `put` and `get` on a cursor that indexes a slot: no wrap-around of the
`int` and the truncating `%` agrees with the mathematical remainder. -/
theorem advance_eq (cfg : Config) (c : Int) (h0 : 0 ≤ c) (h1 : c < cfg.BOUNDED_BUFFER_SIZE) :
    Int.tmod (int32 (c + 1)) cfg.BOUNDED_BUFFER_SIZE = (c + 1) % cfg.BOUNDED_BUFFER_SIZE := by
  have hmax := cfg.size_int.2
  have hc : int32 (c + 1) = c + 1 :=
    int32_eq_self _ (by unfold INT_MIN; omega) (by omega)
  rw [hc]
  exact Int.tmod_eq_emod (by omega) (by omega)

theorem put_preserves (cfg : Config) (s s1 : Buffer) (v : Matrix) (r : Int)
    (hinv : Inv cfg s) (h : put cfg s v = some (s1, r)) :
    Inv cfg s1 ∧ contents cfg s1 = contents cfg s ++ [v] := by
  obtain ⟨hne, -, hbig, htail, hcount, -, hhead, -⟩ := put_eq_some cfg s s1 v r h
  obtain ⟨⟨hc0, hc1, hh0, hh1, ht0, ht1⟩, hpos⟩ := hinv
  have hlt : s.buffer_count < cfg.BOUNDED_BUFFER_SIZE := lt_of_le_of_ne hc1 hne
  have hcap : 0 < cfg.BOUNDED_BUFFER_SIZE := by omega
  have hmax := cfg.size_int.2
  have hcnt : s1.buffer_count = s.buffer_count + 1 := by
    rw [hcount]
    exact int32_eq_self _ (by unfold INT_MIN; omega) (by omega)
  have htmod := advance_eq cfg s.buffer_tail ht0 ht1
  have hnew : s1.buffer_tail = (s1.buffer_head + s1.buffer_count) % cfg.BOUNDED_BUFFER_SIZE := by
    rw [htail, htmod, hhead, hcnt, hpos, Int.emod_add_emod]
    congr 1
    ring
  refine ⟨⟨⟨by omega, by omega, by omega, by omega, ?_, ?_⟩, hnew⟩, ?_⟩
  · rw [htail, htmod]
    exact Int.emod_nonneg _ (by omega)
  · rw [htail, htmod]
    exact Int.emod_lt_of_pos _ hcap
  · unfold contents
    have hn : s1.buffer_count.toNat = s.buffer_count.toNat + 1 := by omega
    rw [hn, List.range_succ, List.map_append, hbig, hhead]
    congr 1
    · apply List.map_congr_left
      intro i hi
      have hi2 : (i : Int) < s.buffer_count := by
        have := List.mem_range.mp hi
        omega
      have hneq := slot_ne_tail cfg.BOUNDED_BUFFER_SIZE s.buffer_head s.buffer_count i hlt hi2
      rw [← hpos] at hneq
      exact Function.update_noteq hneq _ _
    · have hidx : (s.buffer_head + ((s.buffer_count.toNat : Nat) : Int)) % cfg.BOUNDED_BUFFER_SIZE
          = s.buffer_tail := by
        rw [hpos, Int.toNat_of_nonneg hc0]
      simp only [List.map_cons, List.map_nil]
      rw [hidx, Function.update_same]

theorem get_preserves (cfg : Config) (s s1 : Buffer) (x : Matrix)
    (hinv : Inv cfg s) (h : get cfg s = some (s1, some x)) :
    Inv cfg s1 ∧ contents cfg s = x :: contents cfg s1 := by
  obtain ⟨hne, hx, hbig, hhead, hcount, -, htail, -⟩ := get_eq_item cfg s s1 x h
  obtain ⟨⟨hc0, hc1, hh0, hh1, ht0, ht1⟩, hpos⟩ := hinv
  have hcap : 0 < cfg.BOUNDED_BUFFER_SIZE := by omega
  have hmax := cfg.size_int.2
  have hcnt : s1.buffer_count = s.buffer_count - 1 := by
    rw [hcount]
    exact int32_eq_self _ (by unfold INT_MIN; omega) (by omega)
  have htmod := advance_eq cfg s.buffer_head hh0 hh1
  have hnew : s1.buffer_tail = (s1.buffer_head + s1.buffer_count) % cfg.BOUNDED_BUFFER_SIZE := by
    rw [htail, hhead, htmod, hcnt, hpos, Int.emod_add_emod]
    congr 1
    ring
  refine ⟨⟨⟨by omega, by omega, ?_, ?_, by omega, by omega⟩, hnew⟩, ?_⟩
  · rw [hhead, htmod]
    exact Int.emod_nonneg _ (by omega)
  · rw [hhead, htmod]
    exact Int.emod_lt_of_pos _ hcap
  · unfold contents
    have hn : s.buffer_count.toNat = s1.buffer_count.toNat + 1 := by omega
    rw [hn, List.range_succ_eq_map, List.map_cons, List.map_map, hbig, hhead, htmod]
    congr 1
    · rw [hx]
      congr 1
      simp only [Nat.cast_zero, add_zero]
      exact Int.emod_eq_of_lt hh0 hh1
    · apply List.map_congr_left
      intro i _
      simp only [Function.comp_apply, Nat.cast_succ, Int.emod_add_emod]
      congr 2
      ring

theorem inv_initBuffer (cfg : Config) (hcap : 1 ≤ cfg.BOUNDED_BUFFER_SIZE)
    (slots : Int → Matrix) : Inv cfg (initBuffer slots) := by
  refine ⟨⟨le_refl _, ?_, le_refl _, ?_, le_refl _, ?_⟩, ?_⟩ <;>
    simp [initBuffer] <;> omega

theorem runOps_preserves (cfg : Config) (ops : List Op) :
    ∀ (s s1 : Buffer) (outs : List Matrix), Inv cfg s →
      runOps cfg s ops = some (s1, outs) →
      Inv cfg s1 ∧ contents cfg s ++ putsOf ops = outs ++ contents cfg s1 := by
  induction ops with
  | nil =>
    intro s s1 outs hinv h
    simp only [runOps, Option.some.injEq, Prod.mk.injEq] at h
    obtain ⟨h1, h2⟩ := h
    subst h1 h2
    exact ⟨hinv, by simp [putsOf]⟩
  | cons op ops ih =>
    intro s s1 outs hinv h
    cases op with
    | put v =>
      simp only [runOps] at h
      split at h
      · simp at h
      · rename_i s2 r hput
        obtain ⟨hinv2, hc⟩ := put_preserves cfg s s2 v r hinv hput
        obtain ⟨hinv1, hrest⟩ := ih s2 s1 outs hinv2 h
        refine ⟨hinv1, ?_⟩
        rw [putsOf, ← hrest, hc]
        simp
    | get =>
      simp only [runOps] at h
      split at h
      · simp at h
      · rename_i s2 hget
        obtain ⟨hs, -, -⟩ := get_eq_null cfg s s2 hget
        subst hs
        simpa [putsOf] using ih s2 s1 outs hinv h
      · rename_i s2 x hget
        obtain ⟨hinv2, hc⟩ := get_preserves cfg s s2 x hinv hget
        split at h
        · simp at h
        · rename_i s3 outs3 hrun
          simp only [Option.some.injEq, Prod.mk.injEq] at h
          obtain ⟨h1, h2⟩ := h
          subst h1 h2
          obtain ⟨hinv1, hrest⟩ := ih s2 s3 outs3 hinv2 hrun
          refine ⟨hinv1, ?_⟩
          rw [putsOf, hc, List.cons_append, hrest]
          simp

theorem reachable_inv (cfg : Config) (hcap : 1 ≤ cfg.BOUNDED_BUFFER_SIZE) (s : Buffer)
    (h : Reachable cfg s) : Inv cfg s := by
  obtain ⟨slots, ops, outs, hrun⟩ := h
  exact (runOps_preserves cfg ops _ s outs (inv_initBuffer cfg hcap slots) hrun).1

/-- While at most `INT_MAX` matrices have been inserted, the counters count: after the calls
`ops`, `matrices_produced` has grown by the number of `put` calls, `matrices_consumed` by the
number of matrices returned, and the balance holds. -/
theorem runOps_balanced (cfg : Config) (ops : List Op) :
    ∀ (s s1 : Buffer) (outs : List Matrix), Balanced s →
      s.matrices_produced + ((putsOf ops).length : Int) ≤ INT_MAX →
      runOps cfg s ops = some (s1, outs) →
      Balanced s1 ∧
        s1.matrices_produced = s.matrices_produced + ((putsOf ops).length : Int) ∧
        s1.matrices_consumed = s.matrices_consumed + (outs.length : Int) := by
  induction ops with
  | nil =>
    intro s s1 outs hb _ h
    simp only [runOps, Option.some.injEq, Prod.mk.injEq] at h
    obtain ⟨h1, h2⟩ := h
    subst h1 h2
    exact ⟨hb, by simp [putsOf], by simp⟩
  | cons op ops ih =>
    intro s s1 outs hb hmax h
    obtain ⟨hb1, hb2, hb3⟩ := hb
    unfold INT_MAX at hmax
    cases op with
    | put v =>
      simp only [runOps] at h
      simp only [putsOf, List.length_cons, Nat.cast_succ] at hmax
      split at h
      · simp at h
      · rename_i s2 r hput
        obtain ⟨-, -, -, -, hcount, hprod, -, hcons⟩ := put_eq_some cfg s s2 v r hput
        have hp : s2.matrices_produced = s.matrices_produced + 1 := by
          rw [hprod]
          exact int32_eq_self _ (by unfold INT_MIN; omega) (by unfold INT_MAX; omega)
        have hc : s2.buffer_count = s.buffer_count + 1 := by
          rw [hcount]
          exact int32_eq_self _ (by unfold INT_MIN; omega) (by unfold INT_MAX; omega)
        obtain ⟨hbal, h1, h2⟩ := ih s2 s1 outs ⟨by omega, by omega, by omega⟩
          (by unfold INT_MAX; omega) h
        refine ⟨hbal, ?_, by omega⟩
        simp only [putsOf, List.length_cons, Nat.cast_succ]
        omega
    | get =>
      simp only [runOps] at h
      simp only [putsOf] at hmax
      split at h
      · simp at h
      · rename_i s2 hget
        obtain ⟨hs, -, -⟩ := get_eq_null cfg s s2 hget
        subst hs
        simpa [putsOf] using ih s2 s1 outs ⟨hb1, hb2, hb3⟩ (by unfold INT_MAX; omega) h
      · rename_i s2 x hget
        obtain ⟨hne, -, -, -, hcount, hcons, -, hprod⟩ := get_eq_item cfg s s2 x hget
        have hc : s2.buffer_count = s.buffer_count - 1 := by
          rw [hcount]
          exact int32_eq_self _ (by unfold INT_MIN; omega) (by unfold INT_MAX; omega)
        have hk : s2.matrices_consumed = s.matrices_consumed + 1 := by
          rw [hcons]
          exact int32_eq_self _ (by unfold INT_MIN; omega) (by unfold INT_MAX; omega)
        split at h
        · simp at h
        · rename_i s3 outs3 hrun
          simp only [Option.some.injEq, Prod.mk.injEq] at h
          obtain ⟨h1, h2⟩ := h
          subst h1 h2
          obtain ⟨hbal, h3, h4⟩ := ih s2 s3 outs3 ⟨by omega, by omega, by omega⟩
            (by unfold INT_MAX; omega) hrun
          refine ⟨hbal, ?_, ?_⟩
          · simp only [putsOf]
            omega
          · simp only [List.length_cons, Nat.cast_succ]
            omega

theorem contents_eq_nil (cfg : Config) (s : Buffer) (h : s.buffer_count = 0) :
    contents cfg s = [] := by
  simp [contents, h]

theorem runOps_refines (cfg : Config) (ops : List Op) :
    ∀ (s s1 : Buffer) (outs : List Matrix), Inv cfg s →
      runOps cfg s ops = some (s1, outs) →
      fifoOps (contents cfg s) ops = (contents cfg s1, outs) := by
  induction ops with
  | nil =>
    intro s s1 outs _ h
    simp only [runOps, Option.some.injEq, Prod.mk.injEq] at h
    obtain ⟨h1, h2⟩ := h
    subst h1 h2
    simp [fifoOps]
  | cons op ops ih =>
    intro s s1 outs hinv h
    cases op with
    | put v =>
      simp only [runOps] at h
      split at h
      · simp at h
      · rename_i s2 r hput
        obtain ⟨hinv2, hc⟩ := put_preserves cfg s s2 v r hinv hput
        rw [fifoOps, ← hc]
        exact ih s2 s1 outs hinv2 h
    | get =>
      simp only [runOps] at h
      split at h
      · simp at h
      · rename_i s2 hget
        obtain ⟨hs, h0, -⟩ := get_eq_null cfg s s2 hget
        subst hs
        have hnil := contents_eq_nil cfg s2 h0
        have := ih s2 s1 outs hinv h
        rw [hnil] at this ⊢
        rw [fifoOps]
        exact this
      · rename_i s2 x hget
        obtain ⟨hinv2, hc⟩ := get_preserves cfg s s2 x hinv hget
        split at h
        · simp at h
        · rename_i s3 outs3 hrun
          simp only [Option.some.injEq, Prod.mk.injEq] at h
          obtain ⟨h1, h2⟩ := h
          subst h1 h2
          rw [hc, fifoOps, ih s2 s3 outs3 hinv2 hrun]

/-! ## The consumer against the pairing rule -/

theorem addPairs_nil (st : ProdConsStats) (h : StatsInt st) : addPairs st [] = st := by
  obtain ⟨h1, h2, h3⟩ := h
  cases st
  simp only [addPairs, pairSums, List.map_nil, List.sum_nil, add_zero, List.length_nil,
    Nat.cast_zero, mul_zero, ProdConsStats.mk.injEq]
  exact ⟨int32_eq_self _ h1.1 h1.2, int32_eq_self _ h2.1 h2.2, int32_eq_self _ h3.1 h3.2⟩

theorem addPairs_cons (st : ProdConsStats) (a b : Matrix) (ps : List (Matrix × Matrix)) :
    addPairs st ((a, b) :: ps) =
      addPairs
        ⟨int32 (st.sumtotal + int32 (SumMatrix a + SumMatrix b)), int32 (st.multtotal + 1),
          int32 (st.matrixtotal + 2)⟩ ps := by
  simp only [addPairs, pairSums, List.map_cons, List.sum_cons, List.length_cons, Nat.cast_succ,
    ProdConsStats.mk.injEq]
  refine ⟨?_, ?_, ?_⟩
  · generalize (List.map (fun p => SumMatrix p.1 + SumMatrix p.2) ps).sum = rest
    generalize SumMatrix a = sa
    generalize SumMatrix b = sb
    unfold int32
    omega
  · rw [int32_int32_add]
    congr 1
    ring
  · rw [int32_int32_add]
    congr 1
    ring

theorem MatrixMultiply_isSome_iff (a b : Matrix) :
    (MatrixMultiply a b).isSome ↔ a.cols = b.rows := by
  unfold MatrixMultiply
  split <;> simp [*]

theorem cons_worker_pairs (xs : List Matrix) :
    (∀ st : ProdConsStats, StatsInt st →
        cons_worker ⟨none, Status.running, st⟩ (xs.map some ++ [none, none]) =
          ⟨none, Status.finished, addPairs st (greedyPairs xs)⟩) ∧
      ∀ (a : Matrix) (st : ProdConsStats), StatsInt st →
        cons_worker ⟨some a, Status.running, st⟩ (xs.map some ++ [none, none]) =
          ⟨none, Status.finished, addPairs st (pairsHolding a xs)⟩ := by
  induction xs with
  | nil =>
    constructor
    · intro st hst
      simp [cons_worker, cons_step, greedyPairs, addPairs_nil st hst]
    · intro a st hst
      simp [cons_worker, cons_step, pairsHolding, addPairs_nil st hst]
  | cons x xs ih =>
    obtain ⟨ih1, ih2⟩ := ih
    constructor
    · intro st hst
      have h := ih2 x st hst
      simpa [cons_worker, cons_step, greedyPairs] using h
    · intro a st hst
      by_cases hc : x.rows = a.cols
      · have hm : ∃ r, MatrixMultiply a x = some r :=
          Option.isSome_iff_exists.mp ((MatrixMultiply_isSome_iff a x).mpr hc.symm)
        obtain ⟨r, hr⟩ := hm
        have h := ih1
          ⟨int32 (st.sumtotal + int32 (SumMatrix a + SumMatrix x)), int32 (st.multtotal + 1),
            int32 (st.matrixtotal + 2)⟩
          ⟨int32_range _, int32_range _, int32_range _⟩
        simp only [List.map_cons, List.cons_append, cons_worker, cons_step, hr, pairsHolding,
          if_pos hc, addPairs_cons]
        simpa using h
      · have hm : MatrixMultiply a x = none := by
          have := (MatrixMultiply_isSome_iff a x).not.mpr (fun h => hc h.symm)
          simpa using this
        have h := ih2 a st hst
        simp only [List.map_cons, List.cons_append, cons_worker, cons_step, hm, pairsHolding,
          if_neg hc]
        simpa using h

/-! ## Signals -/

theorem wakeFrom_getElem? {α : Type} (wake : α → α) (ws : List Nat) (ts : List α) :
    ∀ j n : Nat, (wakeFrom wake ws j ts)[n]? =
      (ts[n]?).map (fun t => if j + n ∈ ws then wake t else t) := by
  induction ts with
  | nil => intro j n; simp [wakeFrom]
  | cons t ts ih =>
    intro j n
    cases n with
    | zero => simp [wakeFrom]
    | succ n =>
      simp only [wakeFrom, List.getElem?_cons_succ, ih (j + 1) n]
      have : j + 1 + n = j + (n + 1) := by omega
      rw [this]

theorem mem_blockedFrom {α : Type} (status : α → Status) (ts : List α) :
    ∀ j w : Nat, w ∈ blockedFrom status j ts ↔
      ∃ n t, w = j + n ∧ ts[n]? = some t ∧ status t = Status.waiting := by
  induction ts with
  | nil => intro j w; simp [blockedFrom]
  | cons t ts ih =>
    intro j w
    unfold blockedFrom
    have hrec : w ∈ blockedFrom status (j + 1) ts ↔
        ∃ n u, w = j + (n + 1) ∧ ts[n]? = some u ∧ status u = Status.waiting := by
      rw [ih (j + 1) w]
      constructor
      · rintro ⟨n, u, h1, h2, h3⟩
        exact ⟨n, u, by omega, h2, h3⟩
      · rintro ⟨n, u, h1, h2, h3⟩
        exact ⟨n, u, by omega, h2, h3⟩
    constructor
    · intro h
      split at h
      · rename_i hw
        rcases List.mem_cons.mp h with h | h
        · exact ⟨0, t, by omega, by simp, hw⟩
        · obtain ⟨n, u, h1, h2, h3⟩ := hrec.mp h
          exact ⟨n + 1, u, h1, by simpa using h2, h3⟩
      · obtain ⟨n, u, h1, h2, h3⟩ := hrec.mp h
        exact ⟨n + 1, u, h1, by simpa using h2, h3⟩
    · rintro ⟨n, u, h1, h2, h3⟩
      cases n with
      | zero =>
        simp only [List.getElem?_cons_zero, Option.some.injEq] at h2
        subst h2
        rw [if_pos h3]
        exact List.mem_cons.mpr (Or.inl (by omega))
      | succ n =>
        have hmem : w ∈ blockedFrom status (j + 1) ts :=
          hrec.mpr ⟨n, u, h1, by simpa using h2, h3⟩
        split
        · exact List.mem_cons_of_mem _ hmem
        · exact hmem

/-- What a `pthread_cond_signal` that is possible with the choice `ws` does: either nobody sleeps
and nothing changes, or `ws` is a non-empty set of sleepers and exactly these are woken. -/
theorem signal_cases {α : Type} (status : α → Status) (wake : α → α) (ts ts1 : List α)
    (ws : List Nat) (h : signal status wake ts ws = some ts1) :
    (blockedFrom status 0 ts = [] ∧ ws = [] ∧ ts1 = ts) ∨
      (blockedFrom status 0 ts ≠ [] ∧ ws ≠ [] ∧ (∀ w ∈ ws, w ∈ blockedFrom status 0 ts) ∧
        ts1 = wakeFrom wake ws 0 ts) := by
  unfold signal at h
  split at h
  · rename_i hnil
    split at h
    · rename_i hws
      simp only [Option.some.injEq] at h
      exact Or.inl ⟨hnil, hws, h.symm⟩
    · simp at h
  · rename_i hne
    split at h
    · rename_i hlegal
      simp only [Option.some.injEq] at h
      exact Or.inr ⟨hne, hlegal.1, hlegal.2, h.symm⟩
    · simp at h

/-- Some choice of sleepers is always possible for a `pthread_cond_signal`. -/
theorem signal_possible {α : Type} (status : α → Status) (wake : α → α) (ts : List α) :
    ∃ ws ts1, signal status wake ts ws = some ts1 := by
  cases hb : blockedFrom status 0 ts with
  | nil => exact ⟨[], ts, by simp [signal, hb]⟩
  | cons b bs =>
    refine ⟨[b], wakeFrom wake [b] 0 ts, ?_⟩
    simp [signal, hb]

theorem signal_getElem? {α : Type} (status : α → Status) (wake : α → α) (ts ts1 : List α)
    (ws : List Nat) (h : signal status wake ts ws = some ts1) (j : Nat) :
    ts1[j]? = (ts[j]?).map (fun t => if j ∈ ws then wake t else t) := by
  rcases signal_cases status wake ts ts1 ws h with ⟨-, hws, h1⟩ | ⟨-, -, -, h1⟩
  · subst hws h1
    cases ts1[j]? <;> simp
  · subst h1
    rw [wakeFrom_getElem?]
    simp

/-! ## Counting lemmas -/

theorem tally_nonneg {α : Type} (p : α → Bool) (ts : List α) : 0 ≤ tally p ts := by
  induction ts with
  | nil => simp [tally]
  | cons t ts ih =>
    unfold tally
    split <;> omega

theorem tally_le_length {α : Type} (p : α → Bool) (ts : List α) :
    tally p ts ≤ (ts.length : Int) := by
  induction ts with
  | nil => simp [tally]
  | cons t ts ih =>
    unfold tally
    simp only [List.length_cons, Nat.cast_succ]
    split <;> omega

theorem tally_pos_of_mem {α : Type} (p : α → Bool) (ts : List α) (t : α) (hmem : t ∈ ts)
    (hp : p t = true) : 0 < tally p ts := by
  induction ts with
  | nil => simp at hmem
  | cons u ts ih =>
    unfold tally
    rcases List.mem_cons.mp hmem with h | h
    · subst h
      have := tally_nonneg p ts
      simp only [hp, if_true]
      omega
    · have := ih h
      split <;> omega

theorem tally_eq_zero {α : Type} (p : α → Bool) (ts : List α)
    (h : ∀ t ∈ ts, p t = false) : tally p ts = 0 := by
  induction ts with
  | nil => simp [tally]
  | cons u ts ih =>
    unfold tally
    have h1 := h u (List.mem_cons_self _ _)
    have h2 := ih (fun t ht => h t (List.mem_cons_of_mem _ ht))
    simp [h1, h2]

theorem tally_set {α : Type} (p : α → Bool) (ts : List α) :
    ∀ (k : Nat) (old new : α), ts[k]? = some old →
      tally p (ts.set k new) = tally p ts - (if p old then 1 else 0) + (if p new then 1 else 0) := by
  induction ts with
  | nil => intro k old new h; simp at h
  | cons u ts ih =>
    intro k old new h
    cases k with
    | zero =>
      simp only [List.getElem?_cons_zero, Option.some.injEq] at h
      subst h
      simp only [List.set_cons_zero, tally]
      omega
    | succ k =>
      simp only [List.getElem?_cons_succ] at h
      simp only [List.set_cons_succ, tally, ih k old new h]
      omega

theorem sum_map_set {α : Type} (f : α → Int) (ts : List α) :
    ∀ (k : Nat) (old new : α), ts[k]? = some old →
      ((ts.set k new).map f).sum = (ts.map f).sum - f old + f new := by
  induction ts with
  | nil => intro k old new h; simp at h
  | cons u ts ih =>
    intro k old new h
    cases k with
    | zero =>
      simp only [List.getElem?_cons_zero, Option.some.injEq] at h
      subst h
      simp only [List.set_cons_zero, List.map_cons, List.sum_cons]
      omega
    | succ k =>
      simp only [List.getElem?_cons_succ] at h
      simp only [List.set_cons_succ, List.map_cons, List.sum_cons, ih k old new h]
      omega

theorem sum_map_nonneg {α : Type} (f : α → Int) (ts : List α) (h : ∀ t ∈ ts, 0 ≤ f t) :
    0 ≤ (ts.map f).sum := by
  induction ts with
  | nil => simp
  | cons u ts ih =>
    have h1 := h u (List.mem_cons_self _ _)
    have h2 := ih (fun t ht => h t (List.mem_cons_of_mem _ ht))
    simp only [List.map_cons, List.sum_cons]
    omega

theorem sum_map_le {α : Type} (f : α → Int) (b : Int) (ts : List α) (h : ∀ t ∈ ts, f t ≤ b) :
    (ts.map f).sum ≤ (ts.length : Int) * b := by
  induction ts with
  | nil => simp
  | cons u ts ih =>
    have h1 := h u (List.mem_cons_self _ _)
    have h2 := ih (fun t ht => h t (List.mem_cons_of_mem _ ht))
    simp only [List.map_cons, List.sum_cons, List.length_cons, Nat.cast_succ]
    have h3 : ((ts.length : Int) + 1) * b = (ts.length : Int) * b + b := by ring
    omega

theorem sum_map_const {α : Type} (f : α → Int) (b : Int) (ts : List α) (h : ∀ t ∈ ts, f t = b) :
    (ts.map f).sum = (ts.length : Int) * b := by
  induction ts with
  | nil => simp
  | cons u ts ih =>
    have h1 := h u (List.mem_cons_self _ _)
    have h2 := ih (fun t ht => h t (List.mem_cons_of_mem _ ht))
    simp only [List.map_cons, List.sum_cons, List.length_cons, Nat.cast_succ]
    have h3 : ((ts.length : Int) + 1) * b = (ts.length : Int) * b + b := by ring
    omega

theorem blockedFrom_eq_nil_iff {α : Type} (status : α → Status) (ts : List α) :
    ∀ j : Nat, blockedFrom status j ts = [] ↔ tally (asleep status) ts = 0 := by
  induction ts with
  | nil => intro j; simp [blockedFrom, tally]
  | cons u ts ih =>
    intro j
    have hn := tally_nonneg (asleep status) ts
    unfold blockedFrom tally
    by_cases hu : status u = Status.waiting
    · simp only [hu, if_true, asleep, decide_True]
      constructor
      · intro h
        simp at h
      · intro h
        omega
    · simp only [hu, if_false, asleep, decide_False, zero_add]
      simpa [asleep] using ih (j + 1)

theorem wakeFrom_length {α : Type} (wake : α → α) (ws : List Nat) (ts : List α) :
    ∀ j : Nat, (wakeFrom wake ws j ts).length = ts.length := by
  induction ts with
  | nil => intro j; simp [wakeFrom]
  | cons u ts ih => intro j; simp [wakeFrom, ih (j + 1)]

theorem wakeFrom_sum {α : Type} (wake : α → α) (f : α → Int) (hf : ∀ t, f (wake t) = f t)
    (ws : List Nat) (ts : List α) :
    ∀ j : Nat, ((wakeFrom wake ws j ts).map f).sum = (ts.map f).sum := by
  induction ts with
  | nil => intro j; simp [wakeFrom]
  | cons u ts ih =>
    intro j
    simp only [wakeFrom, List.map_cons, List.sum_cons, ih (j + 1)]
    split <;> simp [hf]

/-- Waking the sleepers `ws`: each woken thread leaves the sleepers and joins the threads counted
by `q`, nobody else changes. -/
theorem wakeFrom_tally {α : Type} (status : α → Status) (wake : α → α) (q : α → Bool)
    (ws : List Nat) (hwake : ∀ t, status (wake t) = Status.running) (ts : List α) :
    ∀ j : Nat, (∀ t ∈ ts, status t = Status.waiting → q (wake t) = true ∧ q t = false) →
      (∀ n t, ts[n]? = some t → j + n ∈ ws → status t = Status.waiting) →
      tally (asleep status) (wakeFrom wake ws j ts) + tally q (wakeFrom wake ws j ts) =
          tally (asleep status) ts + tally q ts ∧
        tally (asleep status) (wakeFrom wake ws j ts) ≤ tally (asleep status) ts ∧
        ((∃ n t, ts[n]? = some t ∧ j + n ∈ ws) →
          tally (asleep status) (wakeFrom wake ws j ts) + 1 ≤ tally (asleep status) ts) := by
  induction ts with
  | nil =>
    intro j _ _
    refine ⟨rfl, le_refl _, ?_⟩
    rintro ⟨n, t, h, -⟩
    simp at h
  | cons u ts ih =>
    intro j hq hleg
    have hq2 : ∀ t ∈ ts, status t = Status.waiting → q (wake t) = true ∧ q t = false :=
      fun t ht => hq t (List.mem_cons_of_mem _ ht)
    have hleg2 : ∀ n t, ts[n]? = some t → j + 1 + n ∈ ws → status t = Status.waiting := by
      intro n t hn hmem
      have : j + 1 + n = j + (n + 1) := by omega
      rw [this] at hmem
      exact hleg (n + 1) t (by simpa using hn) hmem
    obtain ⟨e1, e2, e3⟩ := ih (j + 1) hq2 hleg2
    by_cases hj : j ∈ ws
    · have hu : status u = Status.waiting := hleg 0 u (by simp) (by simpa using hj)
      obtain ⟨hq1, hq0⟩ := hq u (List.mem_cons_self _ _) hu
      have ha1 : asleep status (wake u) = false := by simp [asleep, hwake]
      have ha0 : asleep status u = true := by simp [asleep, hu]
      simp only [wakeFrom, if_pos hj, tally, ha1, ha0, hq1, hq0]
      simp only [if_true, Bool.false_eq_true, if_false]
      refine ⟨by omega, by omega, fun _ => by omega⟩
    · simp only [wakeFrom, if_neg hj, tally]
      refine ⟨by omega, by omega, ?_⟩
      rintro ⟨n, t, hn, hmem⟩
      cases n with
      | zero => exact absurd (by simpa using hmem) hj
      | succ n =>
        have hex : ∃ n t, ts[n]? = some t ∧ j + 1 + n ∈ ws := by
          refine ⟨n, t, by simpa using hn, ?_⟩
          have : j + 1 + n = j + (n + 1) := by omega
          rw [this]
          exact hmem
        have := e3 hex
        omega

/-- Effect of a possible `pthread_cond_signal` on the thread counts. -/
theorem signal_effect {α : Type} (status : α → Status) (wake : α → α) (q : α → Bool)
    (hwake : ∀ t, status (wake t) = Status.running) (ts ts1 : List α) (ws : List Nat)
    (hq : ∀ t ∈ ts, status t = Status.waiting → q (wake t) = true ∧ q t = false)
    (h : signal status wake ts ws = some ts1) :
    ts1.length = ts.length ∧
      tally (asleep status) ts1 + tally q ts1 = tally (asleep status) ts + tally q ts ∧
      tally (asleep status) ts1 ≤ tally (asleep status) ts ∧
      (0 < tally (asleep status) ts →
        tally (asleep status) ts1 + 1 ≤ tally (asleep status) ts) ∧
      (∀ t1 ∈ ts1, t1 ∈ ts ∨ ∃ t ∈ ts, status t = Status.waiting ∧ t1 = wake t) ∧
      ∀ f : α → Int, (∀ t, f (wake t) = f t) → (ts1.map f).sum = (ts.map f).sum := by
  rcases signal_cases status wake ts ts1 ws h with ⟨hnil, -, h1⟩ | ⟨-, hws, hsub, h1⟩
  · subst h1
    have h0 := (blockedFrom_eq_nil_iff status ts1 0).mp hnil
    exact ⟨rfl, rfl, le_refl _, fun hpos => by omega, fun t1 ht1 => Or.inl ht1, fun _ _ => rfl⟩
  · subst h1
    have hleg : ∀ n t, ts[n]? = some t → 0 + n ∈ ws → status t = Status.waiting := by
      intro n t hn hmem
      obtain ⟨n1, t1, e1, e2, e3⟩ := (mem_blockedFrom status ts 0 (0 + n)).mp (hsub _ hmem)
      have : n1 = n := by omega
      subst this
      rw [hn] at e2
      simp only [Option.some.injEq] at e2
      rw [e2]
      exact e3
    obtain ⟨e1, e2, e3⟩ := wakeFrom_tally status wake q ws hwake ts 0 hq hleg
    have hex : ∃ n t, ts[n]? = some t ∧ 0 + n ∈ ws := by
      obtain ⟨w, hw⟩ := List.exists_mem_of_ne_nil ws hws
      obtain ⟨n1, t1, e1, e2, -⟩ := (mem_blockedFrom status ts 0 w).mp (hsub _ hw)
      refine ⟨n1, t1, e2, ?_⟩
      rw [← e1]
      exact hw
    refine ⟨wakeFrom_length wake ws ts 0, e1, e2, fun _ => e3 hex, ?_,
      fun f hf => wakeFrom_sum wake f hf ws ts 0⟩
    intro t1 ht1
    obtain ⟨n, hn⟩ := List.mem_iff_getElem?.mp ht1
    rw [wakeFrom_getElem?] at hn
    cases hts : ts[n]? with
    | none => simp [hts] at hn
    | some t =>
      simp only [hts, Option.map_some', Option.some.injEq] at hn
      by_cases hmem : 0 + n ∈ ws
      · rw [if_pos hmem] at hn
        exact Or.inr ⟨t, List.getElem?_mem hts, hleg n t hts hmem, hn.symm⟩
      · rw [if_neg hmem] at hn
        rw [← hn]
        exact Or.inl (List.getElem?_mem hts)

/-! ## The invariant of the interleaved system -/

theorem sysInv_start (cfg : Config) (numw : Nat) (slots : Int → Matrix)
    (hcap : 1 ≤ cfg.BOUNDED_BUFFER_SIZE) : SysInv cfg numw (startSystem numw slots) := by
  have hS : tally (asleep Consumer.status) (List.replicate numw newConsumer) = 0 :=
    tally_eq_zero _ _ (fun t ht => by
      rw [(List.mem_replicate.mp ht).2]
      rfl)
  have hP : tally (asleep Producer.status) (List.replicate numw newProducer) = 0 :=
    tally_eq_zero _ _ (fun t ht => by
      rw [(List.mem_replicate.mp ht).2]
      rfl)
  have hsum : ((List.replicate numw newProducer).map Producer.i).sum = 0 := by
    rw [sum_map_const Producer.i 0 _ (fun t ht => by
      rw [(List.mem_replicate.mp ht).2]
      rfl)]
    simp
  refine ⟨by simp [startSystem], by simp [startSystem], le_refl _, ?_, ?_, ?_, ?_, ?_, ?_, ?_⟩
  · show (0 : Int) ≤ cfg.BOUNDED_BUFFER_SIZE
    omega
  · show (0 : Int) = _
    exact hsum.symm
  · intro p hp
    have : p = newProducer := (List.mem_replicate.mp hp).2
    subst this
    unfold ProducerOk
    refine ⟨le_refl _, Or.inr rfl, ?_, ?_⟩ <;> intro h <;> simp [newProducer] at h
  · intro h
    simp only [startSystem] at h
    omega
  · intro h
    simp only [startSystem] at h
    omega
  · intro h
    simp only [startSystem] at h
    omega
  · intro h
    simp only [startSystem] at h
    omega

theorem prod_step_inv (cfg : Config) (numw : Nat) (gen : Nat → Int → Matrix) (s s1 : System)
    (k : Nat) (ws : List Nat) (seen : Int)
    (hmax : (numw : Int) * cfg.NUMBER_OF_MATRICES ≤ INT_MAX)
    (hinv : SysInv cfg numw s)
    (h : prod_worker_step cfg gen s k ws seen = some s1) : SysInv cfg numw s1 := by
  obtain ⟨hpl, hcl, hc0, hc1, hsum, hok, hN1, hbud, hJ, hJp⟩ := hinv
  unfold prod_worker_step at h
  split at h
  · simp at h
  · rename_i p hk
    have hpmem : p ∈ s.producers := List.getElem?_mem hk
    have hpok := hok p hpmem
    unfold ProducerOk at hpok
    obtain ⟨hi0, hiN, hiw, hif⟩ := hpok
    split at h
    · simp at h
    · rename_i hrun
      have hst : p.status = Status.running := not_not.mp hrun
      have hSp0 : asleep Producer.status p = false := by simp [asleep, hst]
      split at h
      · -- the producer leaves its loop and returns
        rename_i hdone
        simp only [Option.some.injEq] at h
        subst h
        have hS := tally_set (asleep Producer.status) s.producers k p
          { p with status := Status.finished } hk
        have hR := tally_set (prodPutting cfg) s.producers k p
          { p with status := Status.finished } hk
        have hsm := sum_map_set Producer.i s.producers k p { p with status := Status.finished } hk
        have hR0 : prodPutting cfg p = false := by simp [prodPutting, hdone]
        have hR1 : prodPutting cfg { p with status := Status.finished } = false := by
          simp [prodPutting]
        have hS1 : asleep Producer.status { p with status := Status.finished } = false := by
          simp [asleep]
        simp only [hSp0, hR0, hR1, hS1, Bool.false_eq_true, if_false] at hS hR
        refine ⟨by simp [hpl], hcl, hc0, hc1, ?_, ?_, hN1, hbud, hJ, ?_⟩
        · show s.buf.matrices_produced = _
          rw [hsm, hsum]
          simp
        · intro q hq
          rcases List.mem_or_eq_of_mem_set hq with hq | hq
          · exact hok q hq
          · subst hq
            unfold ProducerOk
            exact ⟨hi0, hiN, fun h => by simp at h, fun _ => hdone⟩
        · show 0 < tally (asleep Producer.status) (s.producers.set k _) →
            cfg.BOUNDED_BUFFER_SIZE - s.buf.buffer_count ≤ tally _ (s.producers.set k _)
          rw [hS, hR]
          simpa using hJp
      · rename_i hin
        have hlt : p.i < cfg.NUMBER_OF_MATRICES := not_not.mp hin
        have hR0 : prodPutting cfg p = true := by simp [prodPutting, hst, hlt]
        split at h
        · -- the buffer is full: the producer goes to sleep
          rename_i hput
          have hfull := (put_blocks_iff cfg s.buf _).mp hput
          simp only [Option.some.injEq] at h
          subst h
          have hS := tally_set (asleep Producer.status) s.producers k p
            { p with status := Status.waiting } hk
          have hR := tally_set (prodPutting cfg) s.producers k p
            { p with status := Status.waiting } hk
          have hsm := sum_map_set Producer.i s.producers k p { p with status := Status.waiting } hk
          have hR1 : prodPutting cfg { p with status := Status.waiting } = false := by
            simp [prodPutting]
          have hS1 : asleep Producer.status { p with status := Status.waiting } = true := by
            simp [asleep]
          simp only [hSp0, hR0, hR1, hS1, Bool.false_eq_true, if_false, if_true] at hS hR
          have hRn := tally_nonneg (prodPutting cfg)
            (s.producers.set k { p with status := Status.waiting })
          refine ⟨by simp [hpl], hcl, hc0, hc1, ?_, ?_, hN1, hbud, hJ, ?_⟩
          · show s.buf.matrices_produced = _
            rw [hsm, hsum]
            simp
          · intro q hq
            rcases List.mem_or_eq_of_mem_set hq with hq | hq
            · exact hok q hq
            · subst hq
              unfold ProducerOk
              exact ⟨hi0, hiN, fun _ => hlt, fun h => by simp at h⟩
          · show 0 < tally (asleep Producer.status) (s.producers.set k _) →
              cfg.BOUNDED_BUFFER_SIZE - s.buf.buffer_count ≤ tally _ (s.producers.set k _)
            intro _
            omega
        · -- put completes and signals buffer_not_empty
          rename_i b r hput
          obtain ⟨hne, -, -, -, hcount, hprod, -, -⟩ := put_eq_some cfg s.buf b _ r hput
          split at h
          · simp at h
          · rename_i cs hsig
            simp only [Option.some.injEq] at h
            subst h
            have hsize := cfg.size_int.2
            have hquota := cfg.quota_int.2
            have hi1 : int32 (p.i + 1) = p.i + 1 :=
              int32_eq_self _ (by unfold INT_MIN; omega) (by omega)
            have hcnt : b.buffer_count = s.buf.buffer_count + 1 := by
              rw [hcount]
              exact int32_eq_self _ (by unfold INT_MIN; omega) (by omega)
            have hS := tally_set (asleep Producer.status) s.producers k p
              (prod_after_put p seen) hk
            have hR := tally_set (prodPutting cfg) s.producers k p (prod_after_put p seen) hk
            have hsm := sum_map_set Producer.i s.producers k p (prod_after_put p seen) hk
            have hS1 : asleep Producer.status (prod_after_put p seen) = false := by
              simp [asleep, prod_after_put, hst]
            have hinew : (prod_after_put p seen).i = p.i + 1 := hi1
            simp only [hSp0, hR0, hS1, Bool.false_eq_true, if_false, if_true, hinew] at hS hR hsm
            have hoknew : ∀ q ∈ s.producers.set k (prod_after_put p seen), ProducerOk cfg q := by
              intro q hq
              rcases List.mem_or_eq_of_mem_set hq with hq | hq
              · exact hok q hq
              · subst hq
                unfold ProducerOk
                refine ⟨by rw [hinew]; omega, Or.inl (by rw [hinew]; omega), ?_, ?_⟩
                · intro hw
                  simp [prod_after_put, hst] at hw
                · intro hw
                  simp [prod_after_put, hst] at hw
            have hle := sum_map_le Producer.i cfg.NUMBER_OF_MATRICES
              (s.producers.set k (prod_after_put p seen)) (fun q hq => by
                obtain ⟨q0, q1, -, -⟩ := hoknew q hq
                omega)
            simp only [List.length_set, hpl] at hle
            have hP0 : 0 ≤ s.buf.matrices_produced := by
              rw [hsum]
              exact sum_map_nonneg _ _ (fun q hq => (hok q hq).1)
            have hpr : b.matrices_produced = s.buf.matrices_produced + 1 := by
              rw [hprod]
              exact int32_eq_self _ (by unfold INT_MIN; omega) (by omega)
            obtain ⟨el, eq1, ele, elt, -, -⟩ := signal_effect Consumer.status wakeConsumer
              consRunnable (fun _ => rfl) s.consumers cs ws (fun t _ ht => by
                simp [consRunnable, wakeConsumer, ht]) hsig
            have hSl := tally_le_length (asleep Consumer.status) s.consumers
            have hRn := tally_nonneg (prodPutting cfg) (s.producers.set k (prod_after_put p seen))
            rw [hcl] at hSl
            refine ⟨by simp [hpl], by rw [el, hcl], ?_, ?_, ?_, hoknew, ?_, ?_, ?_, ?_⟩
            · show 0 ≤ b.buffer_count
              omega
            · show b.buffer_count ≤ cfg.BOUNDED_BUFFER_SIZE
              omega
            · show b.matrices_produced = _
              rw [hsm, hpr, hsum]
              ring
            · intro _
              omega
            · show 0 < tally (asleep Consumer.status) cs →
                cfg.NUMBER_OF_MATRICES ≤ b.matrices_produced →
                tally (asleep Consumer.status) cs + b.matrices_produced ≤
                  (numw : Int) * cfg.NUMBER_OF_MATRICES
              intro hpos hge
              have hpos0 : 0 < tally (asleep Consumer.status) s.consumers := by omega
              have hstrict := elt hpos0
              rw [hpr] at hge ⊢
              by_cases hcross : cfg.NUMBER_OF_MATRICES ≤ s.buf.matrices_produced
              · have := hbud hpos0 hcross
                omega
              · have hNeq : s.buf.matrices_produced + 1 = cfg.NUMBER_OF_MATRICES := by omega
                have hmul : ((numw : Int) - 1) * 1 ≤ ((numw : Int) - 1) * cfg.NUMBER_OF_MATRICES :=
                  mul_le_mul_of_nonneg_left (by omega) (by omega)
                have hexp : ((numw : Int) - 1) * cfg.NUMBER_OF_MATRICES =
                    (numw : Int) * cfg.NUMBER_OF_MATRICES - cfg.NUMBER_OF_MATRICES := by ring
                omega
            · show 0 < tally (asleep Consumer.status) cs →
                b.buffer_count ≤ tally consRunnable cs
              intro hpos
              have hpos0 : 0 < tally (asleep Consumer.status) s.consumers := by omega
              have := hJ hpos0
              have := elt hpos0
              omega
            · show 0 < tally (asleep Producer.status) (s.producers.set k _) →
                cfg.BOUNDED_BUFFER_SIZE - b.buffer_count ≤ tally _ (s.producers.set k _)
              intro hpos
              rw [hS] at hpos
              have := hJp (by omega)
              rw [hR]
              split <;> omega

theorem cons_step_some_status (c : Consumer) (x : Matrix) :
    (cons_step c (some x)).status = c.status := by
  unfold cons_step
  split
  · simp at *
  · rfl
  · simp at *
  · split <;> rfl

theorem cons_step_none_status (c : Consumer) :
    (cons_step c none).status = c.status ∨ (cons_step c none).status = Status.finished := by
  unfold cons_step
  split
  · exact Or.inr rfl
  · simp at *
  · exact Or.inl rfl
  · simp at *

theorem cons_step_inv (cfg : Config) (numw : Nat) (s s1 : System) (k : Nat) (ws : List Nat)
    (hinv : SysInv cfg numw s)
    (h : cons_worker_step cfg s k ws = some s1) : SysInv cfg numw s1 := by
  obtain ⟨hpl, hcl, hc0, hc1, hsum, hok, hN1, hbud, hJ, hJp⟩ := hinv
  unfold cons_worker_step at h
  split at h
  · simp at h
  · rename_i c hk
    split at h
    · simp at h
    · rename_i hrun
      have hst : c.status = Status.running := not_not.mp hrun
      have hS0 : asleep Consumer.status c = false := by simp [asleep, hst]
      have hR0 : consRunnable c = true := by simp [consRunnable, hst]
      have hP0 : 0 ≤ s.buf.matrices_produced := by
        rw [hsum]
        exact sum_map_nonneg _ _ (fun q hq => (hok q hq).1)
      split at h
      · -- the buffer is empty and production is not complete: the consumer goes to sleep
        rename_i hget
        obtain ⟨hzero, hless⟩ := (get_blocks_iff cfg s.buf).mp hget
        simp only [Option.some.injEq] at h
        subst h
        have hS := tally_set (asleep Consumer.status) s.consumers k c
          { c with status := Status.waiting } hk
        have hR := tally_set consRunnable s.consumers k c { c with status := Status.waiting } hk
        have hS1 : asleep Consumer.status { c with status := Status.waiting } = true := by
          simp [asleep]
        have hR1 : consRunnable { c with status := Status.waiting } = false := by
          simp [consRunnable]
        simp only [hS0, hR0, hS1, hR1, Bool.false_eq_true, if_false, if_true] at hS hR
        have hRn := tally_nonneg consRunnable (s.consumers.set k { c with status := Status.waiting })
        refine ⟨hpl, by simp [hcl], hc0, hc1, hsum, hok, ?_, ?_, ?_, hJp⟩
        · intro _
          omega
        · show 0 < tally (asleep Consumer.status) (s.consumers.set k _) →
            cfg.NUMBER_OF_MATRICES ≤ s.buf.matrices_produced →
            tally (asleep Consumer.status) (s.consumers.set k _) + s.buf.matrices_produced ≤
              (numw : Int) * cfg.NUMBER_OF_MATRICES
          intro _ hge
          omega
        · show 0 < tally (asleep Consumer.status) (s.consumers.set k _) →
            s.buf.buffer_count ≤ tally consRunnable (s.consumers.set k _)
          intro _
          omega
      · -- get returns NULL
        rename_i b hget
        obtain ⟨-, hzero, -⟩ := get_eq_null cfg s.buf b hget
        simp only [Option.some.injEq] at h
        subst h
        have hS := tally_set (asleep Consumer.status) s.consumers k c (cons_step c none) hk
        have hS1 : asleep Consumer.status (cons_step c none) = false := by
          rcases cons_step_none_status c with h1 | h1 <;> simp [asleep, h1, hst]
        simp only [hS0, hS1, Bool.false_eq_true, if_false] at hS
        have hRn := tally_nonneg consRunnable (s.consumers.set k (cons_step c none))
        refine ⟨hpl, by simp [hcl], hc0, hc1, hsum, hok, ?_, ?_, ?_, hJp⟩
        · show 0 < tally (asleep Consumer.status) (s.consumers.set k _) → _
          rw [hS]
          simpa using hN1
        · show 0 < tally (asleep Consumer.status) (s.consumers.set k _) →
            cfg.NUMBER_OF_MATRICES ≤ s.buf.matrices_produced →
            tally (asleep Consumer.status) (s.consumers.set k _) + s.buf.matrices_produced ≤
              (numw : Int) * cfg.NUMBER_OF_MATRICES
          rw [hS]
          simpa using hbud
        · show 0 < tally (asleep Consumer.status) (s.consumers.set k _) →
            s.buf.buffer_count ≤ tally consRunnable (s.consumers.set k _)
          intro _
          omega
      · -- get returns a matrix and signals buffer_not_full
        rename_i b x hget
        obtain ⟨hne, -, -, -, hcount, -, -, hprod⟩ := get_eq_item cfg s.buf b x hget
        split at h
        · simp at h
        · rename_i ps hsig
          simp only [Option.some.injEq] at h
          subst h
          have hsize := cfg.size_int.2
          have hcnt : b.buffer_count = s.buf.buffer_count - 1 := by
            rw [hcount]
            exact int32_eq_self _ (by unfold INT_MIN; omega) (by omega)
          have hS := tally_set (asleep Consumer.status) s.consumers k c
            (cons_step c (some x)) hk
          have hR := tally_set consRunnable s.consumers k c (cons_step c (some x)) hk
          have hS1 : asleep Consumer.status (cons_step c (some x)) = false := by
            simp [asleep, cons_step_some_status, hst]
          have hR1 : consRunnable (cons_step c (some x)) = true := by
            simp [consRunnable, cons_step_some_status, hst]
          simp only [hS0, hR0, hS1, hR1, Bool.false_eq_true, if_false, if_true] at hS hR
          obtain ⟨el, eq1, ele, elt, emem, esum⟩ := signal_effect Producer.status wakeProducer
            (prodPutting cfg) (fun _ => rfl) s.producers ps ws (fun t htm ht => by
              have hlt := (hok t htm).2.2.1 ht
              simp [prodPutting, wakeProducer, ht, hlt]) hsig
          have hokn : ∀ q ∈ ps, ProducerOk cfg q := by
            intro q hq
            rcases emem q hq with hq | ⟨t, htm, -, hq⟩
            · exact hok q hq
            · subst hq
              obtain ⟨a1, a2, -, -⟩ := hok t htm
              unfold ProducerOk
              exact ⟨a1, a2, fun hw => by simp [wakeProducer] at hw,
                fun hw => by simp [wakeProducer] at hw⟩
          refine ⟨by rw [el, hpl], by simp [hcl], ?_, ?_, ?_, hokn, ?_, ?_, ?_, ?_⟩
          · show 0 ≤ b.buffer_count
            omega
          · show b.buffer_count ≤ cfg.BOUNDED_BUFFER_SIZE
            omega
          · show b.matrices_produced = (ps.map Producer.i).sum
            rw [esum Producer.i (fun _ => rfl), hprod, hsum]
          · show 0 < tally (asleep Consumer.status) (s.consumers.set k _) → _
            rw [hS]
            simpa using hN1
          · show 0 < tally (asleep Consumer.status) (s.consumers.set k _) →
              cfg.NUMBER_OF_MATRICES ≤ b.matrices_produced →
              tally (asleep Consumer.status) (s.consumers.set k _) + b.matrices_produced ≤
                (numw : Int) * cfg.NUMBER_OF_MATRICES
            rw [hS, hprod]
            simpa using hbud
          · show 0 < tally (asleep Consumer.status) (s.consumers.set k _) →
              b.buffer_count ≤ tally consRunnable (s.consumers.set k _)
            intro hpos
            rw [hS] at hpos
            have := hJ (by omega)
            omega
          · show 0 < tally (asleep Producer.status) ps →
              cfg.BOUNDED_BUFFER_SIZE - b.buffer_count ≤ tally (prodPutting cfg) ps
            intro hpos
            have hpos0 : 0 < tally (asleep Producer.status) s.producers := by omega
            have := hJp hpos0
            have := elt hpos0
            omega

/-- Every state of a run of the threads started by `main` satisfies the invariant. -/
theorem runSchedule_inv (cfg : Config) (numw : Nat) (gen : Nat → Int → Matrix)
    (hmax : (numw : Int) * cfg.NUMBER_OF_MATRICES ≤ INT_MAX) (acts : List Action) :
    ∀ s s1 : System, SysInv cfg numw s → runSchedule cfg gen s acts = some s1 →
      SysInv cfg numw s1 := by
  induction acts with
  | nil =>
    intro s s1 hinv h
    simp only [runSchedule, Option.some.injEq] at h
    subst h
    exact hinv
  | cons a acts ih =>
    intro s s1 hinv h
    simp only [runSchedule] at h
    split at h
    · simp at h
    · rename_i s2 hstep
      refine ih s2 s1 ?_ h
      cases a with
      | producer k ws seen => exact prod_step_inv cfg numw gen s s2 k ws seen hmax hinv hstep
      | consumer k ws => exact cons_step_inv cfg numw s s2 k ws hinv hstep

theorem no_sleeper_of_tally {α : Type} (status : α → Status) (ts : List α)
    (h : tally (asleep status) ts ≤ 0) : ∀ t ∈ ts, status t ≠ Status.waiting := by
  intro t ht hw
  have := tally_pos_of_mem (asleep status) ts t ht (by simp [asleep, hw])
  omega

/-- Once `matrices_produced` has reached `numw * NUMBER_OF_MATRICES`, no consumer is asleep. -/
theorem no_sleeper_at_target (cfg : Config) (numw : Nat) (s : System) (hinv : SysInv cfg numw s)
    (htarget : s.buf.matrices_produced = (numw : Int) * cfg.NUMBER_OF_MATRICES) :
    tally (asleep Consumer.status) s.consumers ≤ 0 := by
  obtain ⟨-, hcl, -, -, -, -, hN1, hbud, -, -⟩ := hinv
  by_contra hcon
  have hpos : 0 < tally (asleep Consumer.status) s.consumers := by omega
  have hN := hN1 hpos
  have hlen := tally_le_length (asleep Consumer.status) s.consumers
  rw [hcl] at hlen
  have hmul : ((numw : Int) - 1) * 1 ≤ ((numw : Int) - 1) * cfg.NUMBER_OF_MATRICES :=
    mul_le_mul_of_nonneg_left hN (by omega)
  have hexp : ((numw : Int) - 1) * cfg.NUMBER_OF_MATRICES =
      (numw : Int) * cfg.NUMBER_OF_MATRICES - cfg.NUMBER_OF_MATRICES := by ring
  have := hbud hpos (by omega)
  omega

/-- A runnable consumer can always take a step. -/
theorem cons_enabled (cfg : Config) (s : System) (k : Nat) (c : Consumer)
    (hk : s.consumers[k]? = some c) (hst : c.status = Status.running) :
    ∃ ws s1, cons_worker_step cfg s k ws = some s1 := by
  obtain ⟨ws, ps, hsig⟩ := signal_possible Producer.status wakeProducer s.producers
  refine ⟨ws, ?_⟩
  unfold cons_worker_step
  simp only [hk, hst, ne_eq, not_true_eq_false, if_false]
  cases hget : get cfg s.buf with
  | none => exact ⟨_, rfl⟩
  | some res =>
    obtain ⟨b, r⟩ := res
    cases r with
    | none => exact ⟨_, rfl⟩
    | some x =>
      simp only [hsig]
      exact ⟨_, rfl⟩

/-- A runnable producer can always take a step. -/
theorem prod_enabled (cfg : Config) (gen : Nat → Int → Matrix) (s : System) (k : Nat)
    (p : Producer) (hk : s.producers[k]? = some p) (hst : p.status = Status.running) :
    ∃ ws s1, prod_worker_step cfg gen s k ws 0 = some s1 := by
  obtain ⟨ws, cs, hsig⟩ := signal_possible Consumer.status wakeConsumer s.consumers
  refine ⟨ws, ?_⟩
  unfold prod_worker_step
  simp only [hk, hst, ne_eq, not_true_eq_false, if_false]
  by_cases hlt : p.i < cfg.NUMBER_OF_MATRICES
  · simp only [hlt, not_true_eq_false, if_false]
    cases hput : put cfg s.buf (gen k p.i) with
    | none => exact ⟨_, rfl⟩
    | some res =>
      obtain ⟨b, r⟩ := res
      simp only [hsig]
      exact ⟨_, rfl⟩
  · simp only [hlt, not_false_eq_true, if_true]
    exact ⟨_, rfl⟩

/-- In a state in which no thread can take a step, no consumer is asleep. -/
theorem no_sleeper_when_stuck (cfg : Config) (numw : Nat) (gen : Nat → Int → Matrix)
    (s : System) (hcap : 1 ≤ cfg.BOUNDED_BUFFER_SIZE) (hinv : SysInv cfg numw s)
    (hstuck : ∀ a : Action, step cfg gen s a = none) :
    tally (asleep Consumer.status) s.consumers ≤ 0 := by
  have hinv0 := hinv
  obtain ⟨hpl, hcl, hc0, hc1, hsum, hok, hN1, hbud, hJ, hJp⟩ := hinv
  have hcr : ∀ c ∈ s.consumers, c.status ≠ Status.running := by
    intro c hc hst
    obtain ⟨k, hk⟩ := List.mem_iff_getElem?.mp hc
    obtain ⟨ws, s1, h1⟩ := cons_enabled cfg s k c hk hst
    have h2 := hstuck (Action.consumer k ws)
    simp only [step] at h2
    rw [h1] at h2
    simp at h2
  have hpr : ∀ p ∈ s.producers, p.status ≠ Status.running := by
    intro p hp hst
    obtain ⟨k, hk⟩ := List.mem_iff_getElem?.mp hp
    obtain ⟨ws, s1, h1⟩ := prod_enabled cfg gen s k p hk hst
    have h2 := hstuck (Action.producer k ws 0)
    simp only [step] at h2
    rw [h1] at h2
    simp at h2
  have hRc : tally consRunnable s.consumers = 0 :=
    tally_eq_zero _ _ (fun c hc => by simp [consRunnable, hcr c hc])
  have hRp : tally (prodPutting cfg) s.producers = 0 :=
    tally_eq_zero _ _ (fun p hp => by simp [prodPutting, hpr p hp])
  by_contra hcon
  have hpos : 0 < tally (asleep Consumer.status) s.consumers := by omega
  have hN := hN1 hpos
  have hcount := hJ hpos
  have hSp : tally (asleep Producer.status) s.producers ≤ 0 := by
    by_contra hcon2
    have := hJp (by omega)
    omega
  have hpw := no_sleeper_of_tally Producer.status s.producers hSp
  have hall : ∀ p ∈ s.producers, p.i = cfg.NUMBER_OF_MATRICES := by
    intro p hp
    have hfin : p.status = Status.finished := by
      have h1 := hpr p hp
      have h2 := hpw p hp
      cases hs : p.status <;> simp_all
    obtain ⟨-, a2, -, a4⟩ := hok p hp
    have := a4 hfin
    omega
  have htarget : s.buf.matrices_produced = (numw : Int) * cfg.NUMBER_OF_MATRICES := by
    rw [hsum, sum_map_const Producer.i cfg.NUMBER_OF_MATRICES s.producers hall, hpl]
  have := no_sleeper_at_target cfg numw s hinv0 htarget
  omega

/-! ## Every run is finite -/

theorem wakeFrom_tally_same {α : Type} (wake : α → α) (q : α → Bool)
    (hq : ∀ t, q (wake t) = q t) (ws : List Nat) (ts : List α) :
    ∀ j : Nat, tally q (wakeFrom wake ws j ts) = tally q ts := by
  induction ts with
  | nil => intro j; simp [wakeFrom]
  | cons u ts ih =>
    intro j
    simp only [wakeFrom, tally, ih (j + 1)]
    split <;> simp [hq]

theorem signal_tally_same {α : Type} (status : α → Status) (wake : α → α) (q : α → Bool)
    (hq : ∀ t, q (wake t) = q t) (ts ts1 : List α) (ws : List Nat)
    (h : signal status wake ts ws = some ts1) : tally q ts1 = tally q ts := by
  rcases signal_cases status wake ts ts1 ws h with ⟨-, -, h1⟩ | ⟨-, -, -, h1⟩
  · rw [h1]
  · rw [h1]
    exact wakeFrom_tally_same wake q hq ws ts 0

theorem tally_set_le {α : Type} (p : α → Bool) (ts : List α) (k : Nat) (old new : α)
    (h : ts[k]? = some old) : tally p (ts.set k new) ≤ tally p ts + 1 := by
  have := tally_set p ts k old new h
  split at this <;> split at this <;> omega

/-- In a state of a run, `matrices_produced` is non-negative and at most the grand total, which
is a value of an `int`. -/
theorem produced_bounds (cfg : Config) (numw : Nat) (s : System)
    (hmax : (numw : Int) * cfg.NUMBER_OF_MATRICES ≤ INT_MAX) (hinv : SysInv cfg numw s) :
    0 ≤ s.buf.matrices_produced ∧ s.buf.matrices_produced ≤ grandTotal cfg numw ∧
      grandTotal cfg numw ≤ INT_MAX := by
  obtain ⟨hpl, -, -, -, hsum, hok, -, -, -, -⟩ := hinv
  have h0 : 0 ≤ (s.producers.map Producer.i).sum :=
    sum_map_nonneg _ _ (fun q hq => (hok q hq).1)
  have h1 := sum_map_le Producer.i (max cfg.NUMBER_OF_MATRICES 0) s.producers (fun q hq => by
    obtain ⟨-, q1, -, -⟩ := hok q hq
    rcases q1 with q1 | q1
    · exact le_trans q1 (le_max_left _ _)
    · rw [q1]
      exact le_max_right _ _)
  rw [hpl] at h1
  refine ⟨by rw [hsum]; exact h0, by rw [hsum]; exact h1, ?_⟩
  unfold grandTotal
  rcases le_total cfg.NUMBER_OF_MATRICES 0 with hN | hN
  · rw [max_eq_right hN, mul_zero]
    unfold INT_MAX
    omega
  · rw [max_eq_left hN]
    exact hmax

/-- Every step keeps the counter balance and uses up at least one of the steps left. -/
theorem step_stepsLeft (cfg : Config) (numw : Nat) (gen : Nat → Int → Matrix) (s s1 : System)
    (a : Action) (hmax : (numw : Int) * cfg.NUMBER_OF_MATRICES ≤ INT_MAX)
    (hinv : SysInv cfg numw s) (hinv1 : SysInv cfg numw s1) (hbal : SysBal s)
    (h : step cfg gen s a = some s1) :
    SysBal s1 ∧ stepsLeft cfg numw s1 + 1 ≤ stepsLeft cfg numw s := by
  obtain ⟨hP0, hPT, hTmax⟩ := produced_bounds cfg numw s hmax hinv
  obtain ⟨hpl, hcl, hc0, hc1, hsum, hok, -, -, -, -⟩ := hinv
  obtain ⟨hK0, hPK⟩ := hbal
  have hsize := cfg.size_int.2
  have hSc := tally_le_length (asleep Consumer.status) s.consumers
  have hSp := tally_le_length (asleep Producer.status) s.producers
  rw [hcl] at hSc
  rw [hpl] at hSp
  cases a with
  | producer k ws seen =>
    simp only [step, prod_worker_step] at h
    split at h
    · simp at h
    · rename_i p hk
      split at h
      · simp at h
      · rename_i hrun
        have hst : p.status = Status.running := not_not.mp hrun
        have hR0 : prodRunnable p = true := by simp [prodRunnable, hst]
        split at h
        · simp only [Option.some.injEq] at h
          subst h
          have hR := tally_set prodRunnable s.producers k p { p with status := Status.finished } hk
          have hR1 : prodRunnable { p with status := Status.finished } = false := by
            simp [prodRunnable]
          simp only [hR0, hR1, Bool.false_eq_true, if_false, if_true] at hR
          refine ⟨⟨hK0, hPK⟩, ?_⟩
          show (2 * (numw : Int) + 3) * ((grandTotal cfg numw - s.buf.matrices_produced) +
            (grandTotal cfg numw - s.buf.matrices_consumed)) +
            2 * (tally prodRunnable (s.producers.set k _) + tally consRunnable s.consumers) +
            tally holding s.consumers + 1 ≤ stepsLeft cfg numw s
          unfold stepsLeft
          omega
        · split at h
          · simp only [Option.some.injEq] at h
            subst h
            have hR := tally_set prodRunnable s.producers k p { p with status := Status.waiting } hk
            have hR1 : prodRunnable { p with status := Status.waiting } = false := by
              simp [prodRunnable]
            simp only [hR0, hR1, Bool.false_eq_true, if_false, if_true] at hR
            refine ⟨⟨hK0, hPK⟩, ?_⟩
            show (2 * (numw : Int) + 3) * ((grandTotal cfg numw - s.buf.matrices_produced) +
              (grandTotal cfg numw - s.buf.matrices_consumed)) +
              2 * (tally prodRunnable (s.producers.set k _) + tally consRunnable s.consumers) +
              tally holding s.consumers + 1 ≤ stepsLeft cfg numw s
            unfold stepsLeft
            omega
          · rename_i b r hput
            obtain ⟨hne, -, -, -, hcount, -, -, hcons⟩ := put_eq_some cfg s.buf b _ r hput
            split at h
            · simp at h
            · rename_i cs hsig
              simp only [Option.some.injEq] at h
              subst h
              have hcnt : b.buffer_count = s.buf.buffer_count + 1 := by
                rw [hcount]
                exact int32_eq_self _ (by unfold INT_MIN; omega) (by omega)
              have hsum1 : b.matrices_produced =
                  ((s.producers.set k (prod_after_put p seen)).map Producer.i).sum := hinv1.2.2.2.2.1
              have hnot : ¬ ¬ p.i < cfg.NUMBER_OF_MATRICES := by assumption
              have hlt : p.i < cfg.NUMBER_OF_MATRICES := not_not.mp hnot
              have hquota := cfg.quota_int.2
              have hi0 := (hok p (List.getElem?_mem hk)).1
              have hinew : (prod_after_put p seen).i = p.i + 1 :=
                int32_eq_self _ (by unfold INT_MIN; omega) (by omega)
              have hsm := sum_map_set Producer.i s.producers k p (prod_after_put p seen) hk
              rw [hinew] at hsm
              have hpr : b.matrices_produced = s.buf.matrices_produced + 1 := by
                rw [hsum1, hsm, hsum]
                ring
              have hR := tally_set prodRunnable s.producers k p (prod_after_put p seen) hk
              have hR1 : prodRunnable (prod_after_put p seen) = true := by
                simp [prodRunnable, prod_after_put, hst]
              simp only [hR0, hR1, if_true] at hR
              obtain ⟨-, eq1, -, -, -, -⟩ := signal_effect Consumer.status wakeConsumer
                consRunnable (fun _ => rfl) s.consumers cs ws (fun t _ ht => by
                  simp [consRunnable, wakeConsumer, ht]) hsig
              have hH := signal_tally_same Consumer.status wakeConsumer holding (fun _ => rfl)
                s.consumers cs ws hsig
              have hS1 := tally_nonneg (asleep Consumer.status) cs
              have hbal1 : SysBal ⟨b, s.producers.set k (prod_after_put p seen), cs⟩ := by
                refine ⟨?_, ?_⟩
                · show 0 ≤ b.matrices_consumed
                  omega
                · show b.matrices_produced = b.matrices_consumed + b.buffer_count
                  rw [hpr, hcons, hcnt, hPK]
                  ring
              refine ⟨hbal1, ?_⟩
              show (2 * (numw : Int) + 3) * ((grandTotal cfg numw - b.matrices_produced) +
                (grandTotal cfg numw - b.matrices_consumed)) +
                2 * (tally prodRunnable (s.producers.set k _) + tally consRunnable cs) +
                tally holding cs + 1 ≤ stepsLeft cfg numw s
              unfold stepsLeft
              rw [hpr, hcons, hH, hR]
              have hexp : (2 * (numw : Int) + 3) *
                  ((grandTotal cfg numw - (s.buf.matrices_produced + 1)) +
                    (grandTotal cfg numw - s.buf.matrices_consumed)) =
                  (2 * (numw : Int) + 3) * ((grandTotal cfg numw - s.buf.matrices_produced) +
                    (grandTotal cfg numw - s.buf.matrices_consumed)) - (2 * (numw : Int) + 3) := by
                ring
              rw [hexp]
              omega
  | consumer k ws =>
    simp only [step, cons_worker_step] at h
    split at h
    · simp at h
    · rename_i c hk
      split at h
      · simp at h
      · rename_i hrun
        have hst : c.status = Status.running := not_not.mp hrun
        have hR0 : consRunnable c = true := by simp [consRunnable, hst]
        split at h
        · simp only [Option.some.injEq] at h
          subst h
          have hR := tally_set consRunnable s.consumers k c { c with status := Status.waiting } hk
          have hH := tally_set holding s.consumers k c { c with status := Status.waiting } hk
          have hR1 : consRunnable { c with status := Status.waiting } = false := by
            simp [consRunnable]
          have hH1 : holding { c with status := Status.waiting } = holding c := rfl
          simp only [hR0, hR1, Bool.false_eq_true, if_false, if_true] at hR
          rw [hH1] at hH
          refine ⟨⟨hK0, hPK⟩, ?_⟩
          show (2 * (numw : Int) + 3) * ((grandTotal cfg numw - s.buf.matrices_produced) +
            (grandTotal cfg numw - s.buf.matrices_consumed)) +
            2 * (tally prodRunnable s.producers + tally consRunnable (s.consumers.set k _)) +
            tally holding (s.consumers.set k _) + 1 ≤ stepsLeft cfg numw s
          unfold stepsLeft
          omega
        · simp only [Option.some.injEq] at h
          subst h
          have hR := tally_set consRunnable s.consumers k c (cons_step c none) hk
          have hH := tally_set holding s.consumers k c (cons_step c none) hk
          refine ⟨⟨hK0, hPK⟩, ?_⟩
          show (2 * (numw : Int) + 3) * ((grandTotal cfg numw - s.buf.matrices_produced) +
            (grandTotal cfg numw - s.buf.matrices_consumed)) +
            2 * (tally prodRunnable s.producers + tally consRunnable (s.consumers.set k _)) +
            tally holding (s.consumers.set k _) + 1 ≤ stepsLeft cfg numw s
          unfold stepsLeft
          cases hm : c.m1 with
          | none =>
            have hR1 : consRunnable (cons_step c none) = false := by
              simp [consRunnable, cons_step, hm]
            have hH0 : holding c = false := by simp [holding, hm]
            have hH1 : holding (cons_step c none) = false := by
              simp [holding, cons_step, hm]
            simp only [hR0, hR1, hH0, hH1, Bool.false_eq_true, if_false, if_true] at hR hH
            omega
          | some m =>
            have hR1 : consRunnable (cons_step c none) = true := by
              simp [consRunnable, cons_step, hm, hst]
            have hH0 : holding c = true := by simp [holding, hm]
            have hH1 : holding (cons_step c none) = false := by
              simp [holding, cons_step, hm]
            simp only [hR0, hR1, hH0, hH1, Bool.false_eq_true, if_false, if_true] at hR hH
            omega
        · rename_i b x hget
          obtain ⟨hne, -, -, -, hcount, hcons, -, hprod⟩ := get_eq_item cfg s.buf b x hget
          split at h
          · simp at h
          · rename_i ps hsig
            simp only [Option.some.injEq] at h
            subst h
            have hcnt : b.buffer_count = s.buf.buffer_count - 1 := by
              rw [hcount]
              exact int32_eq_self _ (by unfold INT_MIN; omega) (by omega)
            have hk1 : b.matrices_consumed = s.buf.matrices_consumed + 1 := by
              rw [hcons]
              exact int32_eq_self _ (by unfold INT_MIN; omega) (by omega)
            have hR := tally_set consRunnable s.consumers k c (cons_step c (some x)) hk
            have hH := tally_set_le holding s.consumers k c (cons_step c (some x)) hk
            have hR1 : consRunnable (cons_step c (some x)) = true := by
              simp [consRunnable, cons_step_some_status, hst]
            simp only [hR0, hR1, if_true] at hR
            obtain ⟨-, eq1, -, -, -, -⟩ := signal_effect Producer.status wakeProducer
              prodRunnable (fun _ => rfl) s.producers ps ws (fun t _ ht => by
                simp [prodRunnable, wakeProducer, ht]) hsig
            have hS1 := tally_nonneg (asleep Producer.status) ps
            have hbal1 : SysBal ⟨b, ps, s.consumers.set k (cons_step c (some x))⟩ := by
              refine ⟨?_, ?_⟩
              · show 0 ≤ b.matrices_consumed
                omega
              · show b.matrices_produced = b.matrices_consumed + b.buffer_count
                rw [hprod, hk1, hcnt, hPK]
                ring
            refine ⟨hbal1, ?_⟩
            show (2 * (numw : Int) + 3) * ((grandTotal cfg numw - b.matrices_produced) +
              (grandTotal cfg numw - b.matrices_consumed)) +
              2 * (tally prodRunnable ps + tally consRunnable (s.consumers.set k _)) +
              tally holding (s.consumers.set k _) + 1 ≤ stepsLeft cfg numw s
            unfold stepsLeft
            rw [hprod, hk1, hR]
            have hexp : (2 * (numw : Int) + 3) *
                ((grandTotal cfg numw - s.buf.matrices_produced) +
                  (grandTotal cfg numw - (s.buf.matrices_consumed + 1))) =
                (2 * (numw : Int) + 3) * ((grandTotal cfg numw - s.buf.matrices_produced) +
                  (grandTotal cfg numw - s.buf.matrices_consumed)) - (2 * (numw : Int) + 3) := by
              ring
            rw [hexp]
            omega

theorem step_inv (cfg : Config) (numw : Nat) (gen : Nat → Int → Matrix) (s s1 : System)
    (a : Action) (hmax : (numw : Int) * cfg.NUMBER_OF_MATRICES ≤ INT_MAX)
    (hinv : SysInv cfg numw s) (h : step cfg gen s a = some s1) : SysInv cfg numw s1 := by
  cases a with
  | producer k ws seen => exact prod_step_inv cfg numw gen s s1 k ws seen hmax hinv h
  | consumer k ws => exact cons_step_inv cfg numw s s1 k ws hinv h

theorem stepsLeft_nonneg (cfg : Config) (numw : Nat) (s : System)
    (hmax : (numw : Int) * cfg.NUMBER_OF_MATRICES ≤ INT_MAX)
    (hinv : SysInv cfg numw s) (hbal : SysBal s) : 0 ≤ stepsLeft cfg numw s := by
  obtain ⟨hP0, hPT, -⟩ := produced_bounds cfg numw s hmax hinv
  obtain ⟨-, hPK⟩ := hbal
  have hc0 := hinv.2.2.1
  have h1 := tally_nonneg prodRunnable s.producers
  have h2 := tally_nonneg consRunnable s.consumers
  have h3 := tally_nonneg holding s.consumers
  have hmul : 0 ≤ (2 * (numw : Int) + 3) *
      ((grandTotal cfg numw - s.buf.matrices_produced) +
        (grandTotal cfg numw - s.buf.matrices_consumed)) :=
    mul_nonneg (by omega) (by omega)
  unfold stepsLeft
  omega

/-- A run of `acts.length` steps uses up that many of the steps left. -/
theorem runSchedule_stepsLeft (cfg : Config) (numw : Nat) (gen : Nat → Int → Matrix)
    (hmax : (numw : Int) * cfg.NUMBER_OF_MATRICES ≤ INT_MAX) (acts : List Action) :
    ∀ s s1 : System, SysInv cfg numw s → SysBal s → runSchedule cfg gen s acts = some s1 →
      SysBal s1 ∧ stepsLeft cfg numw s1 + (acts.length : Int) ≤ stepsLeft cfg numw s := by
  induction acts with
  | nil =>
    intro s s1 _ hbal h
    simp only [runSchedule, Option.some.injEq] at h
    subst h
    exact ⟨hbal, by simp⟩
  | cons a acts ih =>
    intro s s1 hinv hbal h
    simp only [runSchedule] at h
    split at h
    · simp at h
    · rename_i s2 hstep
      have hinv2 := step_inv cfg numw gen s s2 a hmax hinv hstep
      obtain ⟨hbal2, hdec⟩ := step_stepsLeft cfg numw gen s s2 a hmax hinv hinv2 hbal hstep
      obtain ⟨hbal1, hrest⟩ := ih s2 s1 hinv2 hbal2 h
      refine ⟨hbal1, ?_⟩
      simp only [List.length_cons, Nat.cast_succ]
      omega

theorem tally_replicate_true {α : Type} (p : α → Bool) (t : α) (hp : p t = true) (n : Nat) :
    tally p (List.replicate n t) = (n : Int) := by
  induction n with
  | zero => simp [tally]
  | succ n ih =>
    simp only [List.replicate_succ, tally, ih, hp, if_true, Nat.cast_succ]
    ring

theorem stepsLeft_start (cfg : Config) (numw : Nat) (slots : Int → Matrix) :
    stepsLeft cfg numw (startSystem numw slots) =
      (4 * (numw : Int) + 6) * grandTotal cfg numw + 4 * (numw : Int) := by
  have h1 : tally prodRunnable (List.replicate numw newProducer) = (numw : Int) :=
    tally_replicate_true prodRunnable newProducer rfl numw
  have h2 : tally consRunnable (List.replicate numw newConsumer) = (numw : Int) :=
    tally_replicate_true consRunnable newConsumer rfl numw
  have h3 : tally holding (List.replicate numw newConsumer) = 0 :=
    tally_eq_zero _ _ (fun t ht => by
      rw [(List.mem_replicate.mp ht).2]
      rfl)
  simp only [stepsLeft, startSystem, initBuffer, h1, h2, h3]
  ring

/-! ## Claims about the buffer -/

/-- C3: in a state within the ranges of the buffer record (`0 ≤ buffer_count ≤
BOUNDED_BUFFER_SIZE`, `0 ≤ buffer_head < BOUNDED_BUFFER_SIZE`, hence a capacity of at least one,
and `matrices_consumed` an `int` below `INT_MAX`), `get` cannot complete exactly when the buffer is
empty and `matrices_produced` is below `NUMBER_OF_MATRICES`; a completed `get` returns `NULL`
exactly when the buffer is empty and `matrices_produced` has reached `NUMBER_OF_MATRICES`, and
then changes nothing; otherwise `buffer_count` is positive, the matrix in slot `buffer_head` is
returned, `buffer_head` advances by one modulo the capacity, `buffer_count` drops by one,
`matrices_consumed` grows by one and `buffer_tail` and `matrices_produced` stay. -/
theorem C3_get_contract (cfg : Config) (s : Buffer)
    (hcount : 0 ≤ s.buffer_count ∧ s.buffer_count ≤ cfg.BOUNDED_BUFFER_SIZE)
    (hhead : 0 ≤ s.buffer_head ∧ s.buffer_head < cfg.BOUNDED_BUFFER_SIZE)
    (hcons : INT_MIN ≤ s.matrices_consumed ∧ s.matrices_consumed < INT_MAX) :
    (get cfg s = none ↔
        s.buffer_count = 0 ∧ s.matrices_produced < cfg.NUMBER_OF_MATRICES) ∧
      ∀ (s1 : Buffer) (r : Option Matrix), get cfg s = some (s1, r) →
        (r = none ↔ s.buffer_count = 0 ∧ cfg.NUMBER_OF_MATRICES ≤ s.matrices_produced) ∧
        (r = none → s1 = s) ∧
        (r ≠ none →
          0 < s.buffer_count ∧ r = some (s.bigmatrix s.buffer_head) ∧
          s1.buffer_head = (s.buffer_head + 1) % cfg.BOUNDED_BUFFER_SIZE ∧
          s1.buffer_count = s.buffer_count - 1 ∧
          s1.matrices_consumed = s.matrices_consumed + 1 ∧
          s1.buffer_tail = s.buffer_tail ∧
          s1.matrices_produced = s.matrices_produced) := by
  refine ⟨get_blocks_iff cfg s, ?_⟩
  intro s1 r h
  have hsize := cfg.size_int.2
  cases r with
  | none =>
    obtain ⟨hs, h0, hN⟩ := get_eq_null cfg s s1 h
    exact ⟨⟨fun _ => ⟨h0, hN⟩, fun _ => rfl⟩, fun _ => hs, fun hne => absurd rfl hne⟩
  | some x =>
    obtain ⟨hne, hx, -, hh, hc, hk, ht, hp⟩ := get_eq_item cfg s s1 x h
    refine ⟨⟨fun hn => by simp at hn, fun hz => absurd hz.1 hne⟩, fun hn => by simp at hn, ?_⟩
    intro _
    refine ⟨lt_of_le_of_ne hcount.1 (Ne.symm hne), by rw [hx], ?_, ?_, ?_, ht, hp⟩
    · rw [hh]
      exact advance_eq cfg s.buffer_head hhead.1 hhead.2
    · rw [hc]
      exact int32_eq_self _ (by unfold INT_MIN; omega) (by omega)
    · rw [hk]
      exact int32_eq_self _ (by omega) (by omega)

/-- Witness of C3, capacity 4 and `NUMBER_OF_MATRICES = 5`: on the empty buffer with
`matrices_produced = 5` the call returns `NULL` and changes nothing; on the buffer that holds two
matrices from slot 3 on the call completes, returns the matrix of slot 3, moves `buffer_head`
from 3 to 0, and counts 1 buffered and 6 consumed. -/
theorem C3_get_contract_witness :
    (∀ (s1 : Buffer) (r : Option Matrix), get cfg45 exhaustedBuffer = some (s1, r) →
        r = none ∧ s1 = exhaustedBuffer) ∧
      get cfg45 twoBuffered ≠ none ∧
      ∀ (s1 : Buffer) (r : Option Matrix), get cfg45 twoBuffered = some (s1, r) →
        r = some (twoBuffered.bigmatrix 3) ∧ s1.buffer_head = 0 ∧ s1.buffer_count = 1 ∧
          s1.matrices_consumed = 6 ∧ s1.buffer_tail = 1 ∧ s1.matrices_produced = 7 := by
  refine ⟨?_, ?_, ?_⟩
  · intro s1 r h
    have t := (C3_get_contract cfg45 exhaustedBuffer (by decide) (by decide)
      (by decide)).2 s1 r h
    have hr : r = none := t.1.mpr (by decide)
    exact ⟨hr, t.2.1 hr⟩
  · intro h
    have t := (C3_get_contract cfg45 twoBuffered (by decide) (by decide)
      (by decide)).1.mp h
    exact absurd t.1 (by decide)
  · intro s1 r h
    have t := (C3_get_contract cfg45 twoBuffered (by decide) (by decide)
      (by decide)).2 s1 r h
    have hr : r ≠ none := fun hn => absurd (t.1.mp hn).1 (by decide)
    obtain ⟨-, h2, h3, h4, h5, h6, h7⟩ := t.2.2 hr
    exact ⟨h2, h3, h4, h5, h6, h7⟩

/-- C4: in a state within the ranges of the buffer record (`0 ≤ buffer_count ≤
BOUNDED_BUFFER_SIZE`, `0 ≤ buffer_tail < BOUNDED_BUFFER_SIZE`, hence a capacity of at least one,
and `matrices_produced` an `int` below `INT_MAX`), `put` cannot complete exactly when the buffer is full;
a completed `put value` started with `buffer_count < BOUNDED_BUFFER_SIZE`, returns `0`, has
written `value` into the old slot `buffer_tail`, advanced `buffer_tail` by one modulo the
capacity, added one to `buffer_count` and to `matrices_produced`, and left `buffer_head`,
`matrices_consumed` and every other slot as they were. -/
theorem C4_put_contract (cfg : Config) (s : Buffer) (value : Matrix)
    (hcount : 0 ≤ s.buffer_count ∧ s.buffer_count ≤ cfg.BOUNDED_BUFFER_SIZE)
    (htail : 0 ≤ s.buffer_tail ∧ s.buffer_tail < cfg.BOUNDED_BUFFER_SIZE)
    (hprod : INT_MIN ≤ s.matrices_produced ∧ s.matrices_produced < INT_MAX) :
    (put cfg s value = none ↔ s.buffer_count = cfg.BOUNDED_BUFFER_SIZE) ∧
      ∀ (s1 : Buffer) (r : Int), put cfg s value = some (s1, r) →
        s.buffer_count < cfg.BOUNDED_BUFFER_SIZE ∧ r = 0 ∧
        s1.bigmatrix s.buffer_tail = value ∧
        s1.buffer_tail = (s.buffer_tail + 1) % cfg.BOUNDED_BUFFER_SIZE ∧
        s1.buffer_count = s.buffer_count + 1 ∧
        s1.matrices_produced = s.matrices_produced + 1 ∧
        s1.buffer_head = s.buffer_head ∧
        s1.matrices_consumed = s.matrices_consumed ∧
        ∀ i : Int, i ≠ s.buffer_tail → s1.bigmatrix i = s.bigmatrix i := by
  refine ⟨put_blocks_iff cfg s value, ?_⟩
  intro s1 r h
  have hsize := cfg.size_int.2
  obtain ⟨hne, hr, hbig, ht, hc, hp, hh, hk⟩ := put_eq_some cfg s s1 value r h
  have hlt : s.buffer_count < cfg.BOUNDED_BUFFER_SIZE := lt_of_le_of_ne hcount.2 hne
  refine ⟨hlt, hr, ?_, ?_, ?_, ?_, hh, hk, ?_⟩
  · rw [hbig, Function.update_same]
  · rw [ht]
    exact advance_eq cfg s.buffer_tail htail.1 htail.2
  · rw [hc]
    exact int32_eq_self _ (by unfold INT_MIN; omega) (by omega)
  · rw [hp]
    exact int32_eq_self _ (by omega) (by omega)
  · intro i hi
    rw [hbig, Function.update_noteq hi]

/-- Witness of C4, capacity 4: on the buffer that holds two matrices and has `buffer_tail = 1`
the call completes, returns 0, writes the matrix into slot 1 and counts 3 buffered and 8
produced; `buffer_head` stays 3. -/
theorem C4_put_contract_witness :
    put cfg45 twoBuffered ⟨2, 2, [[1, 2], [3, 4]]⟩ ≠ none ∧
      ∀ (s1 : Buffer) (r : Int),
        put cfg45 twoBuffered ⟨2, 2, [[1, 2], [3, 4]]⟩ = some (s1, r) →
        r = 0 ∧ s1.bigmatrix 1 = ⟨2, 2, [[1, 2], [3, 4]]⟩ ∧ s1.buffer_tail = 2 ∧
          s1.buffer_count = 3 ∧ s1.matrices_produced = 8 ∧ s1.buffer_head = 3 ∧
          s1.matrices_consumed = 5 := by
  refine ⟨?_, ?_⟩
  · intro h
    have t := (C4_put_contract cfg45 twoBuffered ⟨2, 2, [[1, 2], [3, 4]]⟩ (by decide)
      (by decide) (by decide)).1.mp h
    exact absurd t (by decide)
  · intro s1 r h
    obtain ⟨-, h2, h3, h4, h5, h6, h7, h8, -⟩ :=
      (C4_put_contract cfg45 twoBuffered ⟨2, 2, [[1, 2], [3, 4]]⟩ (by decide) (by decide)
        (by decide)).2 s1 r h
    exact ⟨h2, h3, h4, h5, h6, h7, h8⟩

/-- C5: with a capacity of at least one, every state reached from the initial state by completed
`put` and `get` calls has `0 ≤ buffer_count ≤ BOUNDED_BUFFER_SIZE`,
`0 ≤ buffer_head < BOUNDED_BUFFER_SIZE` and `0 ≤ buffer_tail < BOUNDED_BUFFER_SIZE`. -/
theorem C5_bounds_invariant (cfg : Config) (hcap : 1 ≤ cfg.BOUNDED_BUFFER_SIZE)
    (slots : Int → Matrix) (ops : List Op) (s : Buffer) (outs : List Matrix)
    (hrun : runOps cfg (initBuffer slots) ops = some (s, outs)) :
    (0 ≤ s.buffer_count ∧ s.buffer_count ≤ cfg.BOUNDED_BUFFER_SIZE) ∧
      (0 ≤ s.buffer_head ∧ s.buffer_head < cfg.BOUNDED_BUFFER_SIZE) ∧
      (0 ≤ s.buffer_tail ∧ s.buffer_tail < cfg.BOUNDED_BUFFER_SIZE) := by
  obtain ⟨⟨h1, h2, h3, h4, h5, h6⟩, -⟩ :=
    reachable_inv cfg hcap s ⟨slots, ops, outs, hrun⟩
  exact ⟨⟨h1, h2⟩, ⟨h3, h4⟩, ⟨h5, h6⟩⟩

/-- Witness of C5: capacity 2 and the calls `put a`, `get`, `put b`, after which the cursors have
wrapped around. -/
theorem C5_bounds_invariant_witness :
    ((0 : Int) ≤ 1 ∧ (1 : Int) ≤ 2) ∧ ((0 : Int) ≤ 1 ∧ (1 : Int) < 2) ∧
      ((0 : Int) ≤ 0 ∧ (0 : Int) < 2) :=
  C5_bounds_invariant cfg25 (by decide) (fun _ => default) wrappedOps wrappedBuffer
    [⟨1, 1, [[7]]⟩] rfl

/-- C6: with a capacity of at least one, in every state reached from the initial state in which
the buffer is empty, `put X` completes and the `get` that follows it returns `X` itself and
leaves the buffer empty again. -/
theorem C6_put_get_roundtrip (cfg : Config) (hcap : 1 ≤ cfg.BOUNDED_BUFFER_SIZE)
    (slots : Int → Matrix) (ops : List Op) (s : Buffer) (outs : List Matrix)
    (hrun : runOps cfg (initBuffer slots) ops = some (s, outs))
    (hempty : s.buffer_count = 0) (X : Matrix) :
    ∃ s1 s2 : Buffer, put cfg s X = some (s1, 0) ∧ get cfg s1 = some (s2, some X) ∧
      s2.buffer_count = 0 := by
  obtain ⟨⟨-, -, hh0, hh1, -, -⟩, hpos⟩ :=
    reachable_inv cfg hcap s ⟨slots, ops, outs, hrun⟩
  have htail : s.buffer_tail = s.buffer_head := by
    rw [hpos, hempty, add_zero]
    exact Int.emod_eq_of_lt hh0 hh1
  have hone : int32 (0 + 1) = 1 := by decide
  have hzero : int32 (1 - 1) = 0 := by decide
  cases hput : put cfg s X with
  | none =>
    have := (put_blocks_iff cfg s X).mp hput
    omega
  | some res =>
    obtain ⟨s1, r⟩ := res
    obtain ⟨-, hr, hbig, -, hc, -, hh, -⟩ := put_eq_some cfg s s1 X r hput
    rw [hempty, hone] at hc
    subst hr
    cases hget : get cfg s1 with
    | none =>
      have := ((get_blocks_iff cfg s1).mp hget).1
      omega
    | some res2 =>
      obtain ⟨s2, r2⟩ := res2
      cases r2 with
      | none =>
        have := (get_eq_null cfg s1 s2 hget).2.1
        omega
      | some x =>
        obtain ⟨-, hx, -, -, hc2, -, -, -⟩ := get_eq_item cfg s1 s2 x hget
        have hxX : x = X := by
          rw [hx, hbig, hh, htail, Function.update_same]
        subst hxX
        refine ⟨s1, s2, rfl, hget, ?_⟩
        rw [hc2, hc, hzero]

/-- Witness of C6: capacity 1, the empty state reached by `put a`, `get`, and a 2x2 matrix. -/
theorem C6_put_get_roundtrip_witness :
    ∃ s1 s2 : Buffer,
      put cfg15 ⟨Function.update (fun _ => default) 0 ⟨1, 1, [[7]]⟩, 0, 0, 0, 1, 1⟩
          ⟨2, 2, [[1, 2], [3, 4]]⟩ = some (s1, 0) ∧
        get cfg15 s1 = some (s2, some ⟨2, 2, [[1, 2], [3, 4]]⟩) ∧ s2.buffer_count = 0 :=
  C6_put_get_roundtrip cfg15 (by decide) (fun _ => default) [Op.put ⟨1, 1, [[7]]⟩, Op.get]
    ⟨Function.update (fun _ => default) 0 ⟨1, 1, [[7]]⟩, 0, 0, 0, 1, 1⟩ [⟨1, 1, [[7]]⟩] rfl rfl
    ⟨2, 2, [[1, 2], [3, 4]]⟩

/-- C7: in every state reached from the initial state by completed `put` and `get` calls of which
at most `INT_MAX` are `put` calls (so that `matrices_produced` has not overflowed),
`matrices_consumed ≤ matrices_produced`; and a `get` that returns `NULL`, from any state, leaves
`matrices_consumed` as it was. -/
theorem C7_consumed_le_produced (cfg : Config) :
    (∀ (slots : Int → Matrix) (ops : List Op) (s : Buffer) (outs : List Matrix),
        runOps cfg (initBuffer slots) ops = some (s, outs) →
        ((putsOf ops).length : Int) ≤ INT_MAX →
        s.matrices_consumed ≤ s.matrices_produced) ∧
      ∀ s s1 : Buffer, get cfg s = some (s1, none) →
        s1.matrices_consumed = s.matrices_consumed := by
  constructor
  · intro slots ops s outs hrun hlen
    have hb : Balanced (initBuffer slots) := by simp [Balanced, initBuffer]
    obtain ⟨⟨h1, h2, h3⟩, -, -⟩ := runOps_balanced cfg ops _ s outs hb
      (by simpa [initBuffer] using hlen) hrun
    omega
  · intro s s1 h
    rw [(get_eq_null cfg s s1 h).1]

/-- Witness of C7: capacity 2 and the calls `put a`, `get`, `put b`. -/
theorem C7_consumed_le_produced_witness : (1 : Int) ≤ 2 :=
  (C7_consumed_le_produced cfg25).1 (fun _ => default) wrappedOps wrappedBuffer
    [⟨1, 1, [[7]]⟩] rfl (by decide)

/-- C10: with a capacity of at least one, after every sequence of completed `put` and `get` calls
from the initial state, `buffer_tail = (buffer_head + buffer_count) mod BOUNDED_BUFFER_SIZE`,
the occupied slots read from `buffer_head` on are the queue of the FIFO model and the matrices
returned are those the FIFO model returns; the returned matrices followed by the buffered ones
are exactly the matrices handed to `put`, in order, so the returned matrices are an initial
segment of them. As long as at most `INT_MAX` matrices have been handed to `put` (so that
`matrices_produced` has not overflowed), `matrices_produced = matrices_consumed + buffer_count`,
`matrices_produced` is the number of matrices handed to `put` and `matrices_consumed` the number
of matrices returned. -/
theorem C10_fifo_refinement (cfg : Config) (hcap : 1 ≤ cfg.BOUNDED_BUFFER_SIZE)
    (slots : Int → Matrix) (ops : List Op) (s : Buffer) (outs : List Matrix)
    (hrun : runOps cfg (initBuffer slots) ops = some (s, outs)) :
    s.buffer_tail = (s.buffer_head + s.buffer_count) % cfg.BOUNDED_BUFFER_SIZE ∧
      (((putsOf ops).length : Int) ≤ INT_MAX →
        s.matrices_produced = s.matrices_consumed + s.buffer_count ∧
        s.matrices_produced = ((putsOf ops).length : Int) ∧
        s.matrices_consumed = (outs.length : Int)) ∧
      fifoOps [] ops = (contents cfg s, outs) ∧
      (contents cfg s).length = s.buffer_count.toNat ∧
      outs ++ contents cfg s = putsOf ops ∧
      contents cfg s = (putsOf ops).drop outs.length ∧
      outs <+: putsOf ops := by
  have hinit := inv_initBuffer cfg hcap slots
  obtain ⟨⟨-, hpos⟩, happ⟩ := runOps_preserves cfg ops _ s outs hinit hrun
  have hfifo := runOps_refines cfg ops _ s outs hinit hrun
  have hnil : contents cfg (initBuffer slots) = [] := contents_eq_nil cfg _ rfl
  rw [hnil] at happ hfifo
  rw [List.nil_append] at happ
  refine ⟨hpos, ?_, hfifo, by simp [contents], happ.symm, ?_, ?_⟩
  · intro hlen
    have hb : Balanced (initBuffer slots) := by simp [Balanced, initBuffer]
    obtain ⟨⟨-, -, h3⟩, h4, h5⟩ := runOps_balanced cfg ops _ s outs hb
      (by simpa [initBuffer] using hlen) hrun
    refine ⟨h3, ?_, ?_⟩
    · simpa [initBuffer] using h4
    · simpa [initBuffer] using h5
  · rw [happ, List.drop_left]
  · exact ⟨contents cfg s, happ.symm⟩

/-- Witness of C10: capacity 2 and the calls `put a`, `get`, `put b`: the counters stand at 2
produced and 1 consumed with 1 buffered, the buffer holds `b`, and `a` was returned. -/
theorem C10_fifo_refinement_witness :
    (0 : Int) = (1 + 1) % 2 ∧
      (wrappedBuffer.matrices_produced = wrappedBuffer.matrices_consumed + 1 ∧
        wrappedBuffer.matrices_produced = ((putsOf wrappedOps).length : Int) ∧
        wrappedBuffer.matrices_consumed = (([⟨1, 1, [[7]]⟩] : List Matrix).length : Int)) ∧
      fifoOps [] wrappedOps = (contents cfg25 wrappedBuffer, [⟨1, 1, [[7]]⟩]) ∧
      [⟨1, 1, [[7]]⟩] ++ contents cfg25 wrappedBuffer = putsOf wrappedOps ∧
      [⟨1, 1, [[7]]⟩] <+: putsOf wrappedOps :=
  ⟨(C10_fifo_refinement cfg25 (by decide) (fun _ => default) wrappedOps wrappedBuffer
      [⟨1, 1, [[7]]⟩] rfl).1,
    (C10_fifo_refinement cfg25 (by decide) (fun _ => default) wrappedOps wrappedBuffer
      [⟨1, 1, [[7]]⟩] rfl).2.1 (by decide),
    (C10_fifo_refinement cfg25 (by decide) (fun _ => default) wrappedOps wrappedBuffer
      [⟨1, 1, [[7]]⟩] rfl).2.2.1,
    (C10_fifo_refinement cfg25 (by decide) (fun _ => default) wrappedOps wrappedBuffer
      [⟨1, 1, [[7]]⟩] rfl).2.2.2.2.1,
    (C10_fifo_refinement cfg25 (by decide) (fun _ => default) wrappedOps wrappedBuffer
      [⟨1, 1, [[7]]⟩] rfl).2.2.2.2.2.2⟩

/-! ## Claims about the workers -/

/-- C8: a `cons_worker` whose `get()` calls return the matrices `items` in order and `NULL` from
then on returns, and its statistics are those of the greedy pairing of `items`, provided the
totals are values of an `int` (twice the number of pairs is at most `INT_MAX` and the sum lies in
`INT_MIN .. INT_MAX`): `multtotal` is the number of pairs, `matrixtotal` is twice `multtotal`,
`sumtotal` is the sum of `SumMatrix` over both operands of every pair. A matrix held when `NULL`
arrives is dropped without changing the statistics. Two 2x2 matrices followed by `NULL` give
`multtotal = 1` and `matrixtotal = 2`. -/
theorem C8_cons_worker_greedy_pairs (items : List Matrix)
    (hpairs : 2 * ((greedyPairs items).length : Int) ≤ INT_MAX)
    (hsum : INT_MIN ≤ pairSums (greedyPairs items) ∧ pairSums (greedyPairs items) ≤ INT_MAX) :
    (cons_worker newConsumer (items.map some ++ [none, none])).status = Status.finished ∧
      (cons_worker newConsumer (items.map some ++ [none, none])).stats.multtotal =
        ((greedyPairs items).length : Int) ∧
      (cons_worker newConsumer (items.map some ++ [none, none])).stats.matrixtotal =
        2 * (cons_worker newConsumer (items.map some ++ [none, none])).stats.multtotal ∧
      (cons_worker newConsumer (items.map some ++ [none, none])).stats.sumtotal =
        pairSums (greedyPairs items) ∧
      (∀ (a : Matrix) (st : ProdConsStats),
        cons_worker ⟨some a, Status.running, st⟩ [none, none] =
          ⟨none, Status.finished, st⟩) ∧
      ∀ e1 e2 : List (List Int),
        (cons_worker newConsumer [some ⟨2, 2, e1⟩, some ⟨2, 2, e2⟩, none, none]).stats.multtotal
            = 1 ∧
          (cons_worker newConsumer
            [some ⟨2, 2, e1⟩, some ⟨2, 2, e2⟩, none, none]).stats.matrixtotal = 2 := by
  have hz : StatsInt zeroStats := by
    unfold StatsInt INT_MIN INT_MAX
    simp [zeroStats]
  have h := (cons_worker_pairs items).1 zeroStats hz
  have hnew : newConsumer = ⟨none, Status.running, zeroStats⟩ := rfl
  have hlen : (0 : Int) ≤ ((greedyPairs items).length : Int) := Int.natCast_nonneg _
  have h1 : int32 (0 + ((greedyPairs items).length : Int)) = ((greedyPairs items).length : Int) := by
    rw [zero_add]
    exact int32_eq_self _ (by unfold INT_MIN; omega) (by omega)
  have h2 : int32 (0 + 2 * ((greedyPairs items).length : Int))
      = 2 * ((greedyPairs items).length : Int) := by
    rw [zero_add]
    exact int32_eq_self _ (by unfold INT_MIN; omega) (by omega)
  have h3 : int32 (0 + pairSums (greedyPairs items)) = pairSums (greedyPairs items) := by
    rw [zero_add]
    exact int32_eq_self _ (by omega) (by omega)
  rw [hnew, h]
  refine ⟨rfl, ?_, ?_, ?_, ?_, ?_⟩
  · simp only [addPairs, zeroStats, h1]
  · simp only [addPairs, zeroStats, h1, h2]
  · simp only [addPairs, zeroStats, h3]
  · intro a st
    simp [cons_worker, cons_step]
  · intro e1 e2
    have e1' : int32 1 = 1 := by decide
    have e2' : int32 2 = 2 := by decide
    simp [cons_worker, cons_step, MatrixMultiply, zeroStats, e1', e2']

/-- Witness of C8: a 2x2 matrix, a 3x3 matrix that is skipped, a 2x2 matrix that is multiplied
with the first, and a last 2x2 matrix that is held and dropped: one multiplication, two matrices,
element sum 4 + 10. -/
theorem C8_cons_worker_greedy_pairs_witness :
    (cons_worker newConsumer (pairingItems.map some ++ [none, none])).status = Status.finished ∧
      (cons_worker newConsumer (pairingItems.map some ++ [none, none])).stats = ⟨14, 1, 2⟩ := by
  have hlen : (greedyPairs pairingItems).length = 1 := by decide
  have hsum : pairSums (greedyPairs pairingItems) = 14 := by decide
  obtain ⟨t1, t2, t3, t4, -, -⟩ := C8_cons_worker_greedy_pairs pairingItems
    (by rw [hlen]; decide) (by rw [hsum]; decide)
  refine ⟨t1, ?_⟩
  rw [hlen] at t2
  rw [t2] at t3
  rw [hsum] at t4
  cases hst : (cons_worker newConsumer (pairingItems.map some ++ [none, none])).stats
  rw [hst] at t2 t3 t4
  simp only at t2 t3 t4
  rw [t2, t3, t4]
  rfl

/-! ## Claims about the interleaved threads -/

/-- C1: with two producers and `NUMBER_OF_MATRICES = 5`, `main` reaches a state with an empty
buffer and `matrices_produced = 5` in which producer 1 has not inserted anything yet; there `get`
returns `NULL`, although `matrices_produced` is below the grand total `2 * 5`. -/
theorem C1_get_null_below_grand_total :
    ∃ s : System,
      runSchedule cfg45 onesGen (startSystem 2 (fun _ => default)) firstQuotaSchedule = some s ∧
        s.buf.buffer_count = 0 ∧ s.buf.matrices_produced = 5 ∧
        s.producers[1]? = some newProducer ∧
        get cfg45 s.buf = some (s.buf, none) ∧
        ¬ (2 * cfg45.NUMBER_OF_MATRICES ≤ s.buf.matrices_produced) :=
  ⟨_, rfl, rfl, rfl, rfl, rfl, by decide⟩

/-- C2: the system started by `main` with 2 producers, 2 consumers, `BOUNDED_BUFFER_SIZE = 4` and
`NUMBER_OF_MATRICES = 5` reaches a deadlock: both consumers and producer 0 have returned,
producer 1 sleeps in `put` after four of its five insertions, the buffer is full (so `put` cannot
complete for any matrix) and no thread can take a step. -/
theorem C2_deadlock_reachable :
    ∃ s : System,
      runSchedule cfg45 onesGen (startSystem 2 (fun _ => default)) deadlockSchedule = some s ∧
        s.producers.map Producer.status = [Status.finished, Status.waiting] ∧
        s.consumers.map Consumer.status = [Status.finished, Status.finished] ∧
        s.buf.buffer_count = 4 ∧ s.buf.matrices_produced = 9 ∧
        (∀ v : Matrix, put cfg45 s.buf v = none) ∧
        Deadlock cfg45 onesGen s := by
  refine ⟨_, rfl, rfl, rfl, rfl, rfl, fun _ => rfl, ?_, ?_⟩
  · exact Or.inl ⟨⟨4, Status.waiting, ⟨16, 0, 4⟩⟩, by decide, by decide⟩
  · intro a
    cases a with
    | producer k ws seen =>
      match k with
      | 0 => rfl
      | 1 => rfl
      | k + 2 => rfl
    | consumer k ws =>
      match k with
      | 0 => rfl
      | 1 => rfl
      | k + 2 => rfl

/-- C9: in every state `s` that the threads started by `main` with `numw` producers and `numw`
consumers can reach (capacity at least one, grand total `numw * NUMBER_OF_MATRICES` at most
`INT_MAX`): the `put` that makes `matrices_produced` reach the grand total wakes every consumer
that is asleep on `buffer_not_empty` at that moment, so that no consumer is asleep after it; in
every state in which `matrices_produced` has reached the grand total no consumer is asleep; in
every state in which no thread can take a step no consumer is asleep; and the run that leads to
`s` has at most `(4 * numw + 6) * grandTotal + 4 * numw` steps. Every run therefore stops, and
it cannot stop while a consumer is asleep. -/
theorem C9_final_put_wakes_every_sleeper (cfg : Config) (numw : Nat) (gen : Nat → Int → Matrix)
    (slots : Int → Matrix) (acts : List Action) (s : System)
    (hcap : 1 ≤ cfg.BOUNDED_BUFFER_SIZE)
    (hmax : (numw : Int) * cfg.NUMBER_OF_MATRICES ≤ INT_MAX)
    (hrun : runSchedule cfg gen (startSystem numw slots) acts = some s) :
    (∀ (k : Nat) (ws : List Nat) (seen : Int) (s1 : System),
        step cfg gen s (Action.producer k ws seen) = some s1 →
        s.buf.matrices_produced < (numw : Int) * cfg.NUMBER_OF_MATRICES →
        s1.buf.matrices_produced = (numw : Int) * cfg.NUMBER_OF_MATRICES →
        (∀ (j : Nat) (c : Consumer), s.consumers[j]? = some c → c.status = Status.waiting →
          s1.consumers[j]? = some (wakeConsumer c)) ∧
        ∀ c ∈ s1.consumers, c.status ≠ Status.waiting) ∧
      (s.buf.matrices_produced = (numw : Int) * cfg.NUMBER_OF_MATRICES →
        ∀ c ∈ s.consumers, c.status ≠ Status.waiting) ∧
      ((∀ a : Action, step cfg gen s a = none) →
        ∀ c ∈ s.consumers, c.status ≠ Status.waiting) ∧
      (acts.length : Int) ≤ (4 * (numw : Int) + 6) * grandTotal cfg numw + 4 * (numw : Int) := by
  have hstart := sysInv_start cfg numw slots hcap
  have hinv : SysInv cfg numw s := runSchedule_inv cfg numw gen hmax acts _ s hstart hrun
  refine ⟨?_, ?_, ?_, ?_⟩
  · intro k ws seen s1 hstep hless htarget
    have hinv1 : SysInv cfg numw s1 := prod_step_inv cfg numw gen s s1 k ws seen hmax hinv hstep
    have hnone := no_sleeper_of_tally Consumer.status s1.consumers
      (no_sleeper_at_target cfg numw s1 hinv1 htarget)
    refine ⟨?_, hnone⟩
    intro j c hj hw
    simp only [step, prod_worker_step] at hstep
    split at hstep
    · simp at hstep
    · split at hstep
      · simp at hstep
      · split at hstep
        · simp only [Option.some.injEq] at hstep
          subst hstep
          exact absurd htarget (ne_of_lt hless)
        · split at hstep
          · simp only [Option.some.injEq] at hstep
            subst hstep
            exact absurd htarget (ne_of_lt hless)
          · split at hstep
            · simp at hstep
            · rename_i cs hsig
              simp only [Option.some.injEq] at hstep
              subst hstep
              have hget := signal_getElem? Consumer.status wakeConsumer s.consumers cs ws hsig j
              rw [hj] at hget
              simp only [Option.map_some'] at hget
              by_cases hmem : j ∈ ws
              · rw [if_pos hmem] at hget
                exact hget
              · rw [if_neg hmem] at hget
                exact absurd hw (hnone c (List.getElem?_mem hget))
  · intro htarget
    exact no_sleeper_of_tally Consumer.status s.consumers
      (no_sleeper_at_target cfg numw s hinv htarget)
  · intro hstuck
    exact no_sleeper_of_tally Consumer.status s.consumers
      (no_sleeper_when_stuck cfg numw gen s hcap hinv hstuck)
  · have hbal0 : SysBal (startSystem numw slots) := ⟨le_refl _, rfl⟩
    obtain ⟨hbal, hlen⟩ := runSchedule_stepsLeft cfg numw gen hmax acts _ s hstart hbal0 hrun
    have hnn := stepsLeft_nonneg cfg numw s hmax hinv hbal
    rw [stepsLeft_start] at hlen
    omega

/-- Witness of C9: 2 producers and 2 consumers with `NUMBER_OF_MATRICES = 1`. Both consumers fall
asleep, the first `put` wakes consumer 0 and leaves consumer 1 asleep; the second `put`, which
makes `matrices_produced` reach the grand total 2, wakes consumer 1. -/
theorem C9_final_put_wakes_every_sleeper_witness :
    beforeFinalPut.consumers.map Consumer.status = [Status.running, Status.waiting] ∧
      step cfg41 onesGen beforeFinalPut (Action.producer 1 [1] 4) = some afterFinalPut ∧
      (∀ (j : Nat) (c : Consumer), beforeFinalPut.consumers[j]? = some c →
        c.status = Status.waiting → afterFinalPut.consumers[j]? = some (wakeConsumer c)) ∧
      ∀ c ∈ afterFinalPut.consumers, c.status ≠ Status.waiting :=
  ⟨rfl, rfl,
    (C9_final_put_wakes_every_sleeper cfg41 2 onesGen (fun _ => default) beforeFinalSchedule
      beforeFinalPut (by decide) (by decide) rfl).1 1 [1] 4 afterFinalPut rfl (by decide)
      (by decide)⟩

end PCMatrix
